import Mathlib

/-!
Verification development for `amodatabase.py` (crankycoder/AMODatabase).

The Python program is shallowly embedded:

* `PyValue` models the Python values that flow through the program
  (results of `json.loads`, plus everything `fix_types`/`marshal` can
  produce: `None`, `bool`, `int`, `float`, `str`, `list`, `dict`).
  Python dicts are association lists with first-position/last-value-wins
  insertion (`dictInsert`), matching CPython dict update semantics.
  Python `float` is modelled by `PFloat`: an exact rational for finite
  values plus the IEEE specials `nan`, `inf` and `-inf` that `float(str)`
  and `json.loads` can produce. The program performs no float arithmetic,
  only `float(...)` coercions, and `json.dumps` prints the shortest
  round-tripping repr, so exact rationals are a faithful carrier for the
  finite values (IEEE rounding, exponent forms and underscore separators
  are outside the model and change no claim's truth value). Python `==`
  is modelled by `pyEq`, under which `nan` compares unequal to `nan`,
  as in Python for the structurally fresh objects the claims compare.
* Fallible Python operations (raising code paths) return `Option`/`Except`.
* `fix_types`/`marshal` are translated from the source's recursive
  marshaller; schemas (`class ... JSONSchema: meta = {...}`) become the
  mutual inductive `TypeDef`/`Schema`.
-/

namespace AMO

/-- A Python `float`: an exact rational for finite values (the program
performs no float arithmetic, and every finite float it handles comes
from a decimal literal, which `json.dumps` round-trips exactly), plus
the IEEE specials NaN and the two infinities, which `float(str)` and
`json.loads` can produce. -/
inductive PFloat where
  | finite : Rat → PFloat
  | nan : PFloat
  | inf : PFloat
  | ninf : PFloat
  deriving DecidableEq

/-- Negation of a Python float (`float("-nan")` is still a NaN). -/
def pfNeg : PFloat → PFloat
  | .finite q => .finite (-q)
  | .nan => .nan
  | .inf => .ninf
  | .ninf => .inf

mutual

/-- Python runtime values reachable in this program. -/
inductive PyValue where
  | null
  | bool (b : Bool)
  | int (n : Int)
  | float (f : PFloat)
  | str (s : String)
  | list (xs : PyList)
  | dict (kvs : PyPairs)
  deriving DecidableEq

/-- A Python list of `PyValue`s. -/
inductive PyList where
  | nil
  | cons (v : PyValue) (rest : PyList)
  deriving DecidableEq

/-- The entries of a Python dict, in insertion order. -/
inductive PyPairs where
  | nil
  | cons (k v : PyValue) (rest : PyPairs)
  deriving DecidableEq

end

/-- Length of an embedded Python list. -/
def PyList.length : PyList → Nat
  | .nil => 0
  | .cons _ rest => rest.length + 1

/-- Zero-based element access in an embedded Python list. -/
def PyList.get? : PyList → Nat → Option PyValue
  | .nil, _ => none
  | .cons v _, 0 => some v
  | .cons _ rest, n + 1 => rest.get? n

/-- Last element of an embedded Python list (Python `xs[-1]`). -/
def PyList.getLast? : PyList → Option PyValue
  | .nil => none
  | .cons v .nil => some v
  | .cons _ (PyList.cons w rest) => PyList.getLast? (.cons w rest)

/-- The dict keys in insertion order (what `for k in d` iterates). -/
def PyPairs.keys : PyPairs → PyList
  | .nil => .nil
  | .cons k _ rest => .cons k rest.keys

/-- Python dict lookup `d[k]` / `d.get(k)`: dict keys are unique, so the
first match is the binding. -/
def pyGet : PyPairs → PyValue → Option PyValue
  | .nil, _ => none
  | .cons k' v rest, k => if k' = k then some v else pyGet rest k

/-- CPython dict insertion `d[k] = v`: an existing key keeps its position
and gets the new value, a fresh key is appended. -/
def dictInsert : PyPairs → PyValue → PyValue → PyPairs
  | .nil, k, v => .cons k v .nil
  | .cons k' v' rest, k, v =>
      if k' = k then .cons k' v rest else .cons k' v' (dictInsert rest k v)

/-- Python hashability of the values in the model: `list` and `dict` are
unhashable (using one as a dict key raises `TypeError`). -/
def hashable : PyValue → Bool
  | .list _ => false
  | .dict _ => false
  | _ => true

/-- Build a dict from a pair sequence (Python `dict(pairs)`), failing on an
unhashable key. -/
def pyDictOfPairsAux : PyPairs → PyPairs → Option PyPairs
  | acc, .nil => some acc
  | acc, .cons k v rest =>
      if hashable k then pyDictOfPairsAux (dictInsert acc k v) rest else none

/-- Python `dict(pairs)`. -/
def pyDictOfPairs (ps : PyPairs) : Option PyPairs :=
  pyDictOfPairsAux .nil ps

/-! ### Decimal digits: Python's `int`/`float` printing and parsing -/

/-- The decimal digit characters. -/
def digitChar : Nat → Char
  | 0 => '0' | 1 => '1' | 2 => '2' | 3 => '3' | 4 => '4'
  | 5 => '5' | 6 => '6' | 7 => '7' | 8 => '8' | _ => '9'

/-- Numeric value of a decimal digit character. -/
def digitVal (c : Char) : Nat := c.toNat - 48

/-- Decimal digit test (`'0' ≤ c ≤ '9'`). -/
def isDig (c : Char) : Bool := decide (48 ≤ c.toNat) && decide (c.toNat ≤ 57)

/-- Horner evaluation of a big-endian decimal digit string. -/
def natOfChars (cs : List Char) : Nat :=
  cs.foldl (fun a c => 10 * a + digitVal c) 0

/-- Little-endian decimal digits of `n`; the first argument is fuel
(`n` itself suffices). -/
def natToCharsAux : Nat → Nat → List Char
  | 0, _ => []
  | _ + 1, 0 => []
  | fuel + 1, n => digitChar (n % 10) :: natToCharsAux fuel (n / 10)

/-- Big-endian decimal digit string of `n` (Python `str`/`repr` of a
nonnegative integer). -/
def natToChars (n : Nat) : List Char :=
  if n = 0 then ['0'] else (natToCharsAux n n).reverse

/-- Python `repr(n)` for `n : int`. -/
def intToStr (n : Int) : String :=
  (if n < 0 then "-" else "") ++ ⟨natToChars n.natAbs⟩

/-- Parse a nonempty all-digit string as a natural number. -/
def parseNatChars (cs : List Char) : Option Nat :=
  if cs ≠ [] ∧ cs.all isDig then some (natOfChars cs) else none

/-- Python `int(s)` body, over the character data. -/
def pyIntOfChars : List Char → Option Int
  | [] => none
  | c :: r =>
      if c = '-' then (parseNatChars r).map (fun n => -(Int.ofNat n))
      else if c = '+' then (parseNatChars r).map Int.ofNat
      else (parseNatChars (c :: r)).map Int.ofNat

/-- Python `int(s)` for `s : str`: optional sign, then decimal digits
(whitespace stripping and underscore separators are outside the model). -/
def pyIntOfStr (s : String) : Option Int := pyIntOfChars s.data

/-- Parse an unsigned decimal, optionally with a fractional part
(`"10"`, `"1.5"`, `"1."`, `".5"`). -/
def parseDecCharsAux (ip : List Char) : List Char → Option Rat
  | [] => if ip.isEmpty then none else some ((natOfChars ip : Nat) : Rat)
  | c :: fp =>
      if c = '.' ∧ fp.all isDig = true ∧ (ip ≠ [] ∨ fp ≠ []) then
        some (((natOfChars (ip ++ fp) : Nat) : Rat) / (10 : Rat) ^ fp.length)
      else none

def parseDecChars (cs : List Char) : Option Rat :=
  parseDecCharsAux (cs.takeWhile isDig) (cs.dropWhile isDig)

/-- ASCII lowercasing of one character (how CPython's float parser
matches the special names case-insensitively). -/
def lowChar (c : Char) : Char :=
  if 65 ≤ c.toNat ∧ c.toNat ≤ 90 then Char.ofNat (c.toNat + 32) else c

/-- ASCII lowercasing of a character list. -/
def lowerChars : List Char → List Char
  | [] => []
  | c :: r => lowChar c :: lowerChars r

/-- The unsigned part of Python `float(s)`: the case-insensitive special
names `nan`, `inf` and `infinity`, or a decimal literal. -/
def pyFloatMag (cs : List Char) : Option PFloat :=
  if lowerChars cs = ['n', 'a', 'n'] then some .nan
  else if lowerChars cs = ['i', 'n', 'f'] ∨
      lowerChars cs = ['i', 'n', 'f', 'i', 'n', 'i', 't', 'y'] then some .inf
  else (parseDecChars cs).map PFloat.finite

/-- Python `float(s)` body, over the character data. -/
def pyFloatOfChars : List Char → Option PFloat
  | [] => none
  | c :: r =>
      if c = '-' then (pyFloatMag r).map pfNeg
      else if c = '+' then pyFloatMag r
      else pyFloatMag (c :: r)

/-- Python `float(s)` for `s : str`: optional sign, then a decimal
literal or a case-insensitive special name (`nan`, `inf`, `infinity`).
Exponent forms, whitespace stripping and underscore separators are
outside the model; they only produce additional finite floats, on which
no claim's truth differs. -/
def pyFloatOfStr (s : String) : Option PFloat := pyFloatOfChars s.data

/-- Decimal rendering of a float value, exact whenever the denominator
divides a power of ten (true of every float the program constructs, since
they all come from decimal literals). CPython prints the shortest exact
repr; this rendering may carry extra digits but denotes the same value,
which is all any claim depends on. -/
def floatToStr (q : Rat) : String :=
  let d := q.den
  let m := q.num.natAbs * (10 ^ d / d)
  let digs := natToChars m
  let digs := List.replicate (d + 1 - digs.length) '0' ++ digs
  (if q.num < 0 then "-" else "") ++
    ⟨digs.take (digs.length - d)⟩ ++ "." ++ ⟨digs.drop (digs.length - d)⟩

/-- Python `str`/`repr` of a float (`str(float("nan"))` is `"nan"`,
`str(float("inf"))` is `"inf"`). -/
def pfloatToStr : PFloat → String
  | .finite q => floatToStr q
  | .nan => "nan"
  | .inf => "inf"
  | .ninf => "-inf"

/-- The token `json.dumps` emits for a float, also used for float dict
keys: the special values print as `NaN`, `Infinity` and `-Infinity`. -/
def pfloatToJson : PFloat → String
  | .finite q => floatToStr q
  | .nan => "NaN"
  | .inf => "Infinity"
  | .ninf => "-Infinity"

mutual

/-- Python `str(v)`. -/
def pyStr : PyValue → String
  | .null => "None"
  | .bool b => if b then "True" else "False"
  | .int n => intToStr n
  | .float f => pfloatToStr f
  | .str s => s
  | .list xs => "[" ++ pyReprList xs ++ "]"
  | .dict kvs => "\x7b" ++ pyReprPairs kvs ++ "\x7d"

/-- Python `repr(v)` (string quoting is simplified: escapes are not
modelled; no claim inspects repr output). -/
def pyRepr : PyValue → String
  | .str s => "'" ++ s ++ "'"
  | .null => "None"
  | .bool b => if b then "True" else "False"
  | .int n => intToStr n
  | .float f => pfloatToStr f
  | .list xs => "[" ++ pyReprList xs ++ "]"
  | .dict kvs => "\x7b" ++ pyReprPairs kvs ++ "\x7d"

/-- Comma-joined reprs of list elements. -/
def pyReprList : PyList → String
  | .nil => ""
  | .cons v .nil => pyRepr v
  | .cons v (PyList.cons w rest) =>
      pyRepr v ++ ", " ++ pyReprList (.cons w rest)

/-- Comma-joined `k: v` reprs of dict entries. -/
def pyReprPairs : PyPairs → String
  | .nil => ""
  | .cons k v .nil => pyRepr k ++ ": " ++ pyRepr v
  | .cons k v (PyPairs.cons k' v' rest) =>
      pyRepr k ++ ": " ++ pyRepr v ++ ", " ++ pyReprPairs (.cons k' v' rest)

end

/-- Truncation toward zero (Python `int(f)` on a float). -/
def ratTrunc (q : Rat) : Int := q.num.tdiv q.den

/-- Python `int(v)`: fails (raises) on `None`, lists and dicts, on
non-numeral strings, and on the non-finite floats (`int(float("nan"))`
raises `ValueError`, `int(float("inf"))` raises `OverflowError`). -/
def pyInt : PyValue → Option Int
  | .null => none
  | .bool b => some (if b then 1 else 0)
  | .int n => some n
  | .float f =>
      match f with
      | .finite q => some (ratTrunc q)
      | _ => none
  | .str s => pyIntOfStr s
  | .list _ => none
  | .dict _ => none

/-- Python `float(v)`: fails (raises) on `None`, lists and dicts, and on
non-literal strings. -/
def pyFloat : PyValue → Option PFloat
  | .null => none
  | .bool b => some (.finite (if b then 1 else 0))
  | .int n => some (.finite (n : Rat))
  | .float f => some f
  | .str s => pyFloatOfStr s
  | .list _ => none
  | .dict _ => none

/-- Python `bool(v)` (total: truthiness; `bool` of NaN or an infinity is
`True`). -/
def pyBool : PyValue → Bool
  | .null => false
  | .bool b => b
  | .int n => n ≠ 0
  | .float f =>
      match f with
      | .finite q => decide (q ≠ 0)
      | _ => true
  | .str s => s ≠ ""
  | .list xs => xs.length ≠ 0
  | .dict kvs => kvs.keys.length ≠ 0

/-- One-character strings of a string's characters (Python iteration over
a `str`). -/
def charsToPyList : List Char → PyList
  | [] => .nil
  | c :: cs => .cons (.str ⟨[c]⟩) (charsToPyList cs)

/-- Python iteration `for j in value`: lists yield elements, strings yield
one-character strings, dicts yield their keys; other values raise
`TypeError`. -/
def pyIter : PyValue → Option PyList
  | .list xs => some xs
  | .str s => some (charsToPyList s.data)
  | .dict kvs => some kvs.keys
  | _ => none

/-! ### Schemas and the marshaller (`JSONSchema` classes, `fix_types`, `marshal`) -/

mutual

/-- The type descriptors the source's `fix_types` dispatches on: the scalar
kinds of its `serializers` table, `typing.List[T]`, `typing.Dict[K, V]`,
and a nested `JSONSchema` subclass. -/
inductive TypeDef where
  | tstr
  | tint
  | tfloat
  | tbool
  | tlist (t : TypeDef)
  | tdict (k v : TypeDef)
  | tschema (s : Schema)
  deriving DecidableEq

/-- A schema's `meta` dict: field names with their type descriptors, in
declaration order. -/
inductive Schema where
  | nil
  | cons (name : String) (t : TypeDef) (rest : Schema)
  deriving DecidableEq

end

/-- The `AMOAddonFile.meta` schema from the source. -/
def AMOAddonFile : Schema :=
  .cons "id" .tint (.cons "platform" .tstr (.cons "status" .tstr
    (.cons "is_webextension" .tbool .nil)))

/-- The `AMOAddonVersion.meta` schema from the source. -/
def AMOAddonVersion : Schema :=
  .cons "files" (.tlist (.tschema AMOAddonFile)) .nil

/-- The `AMOAddonInfo.meta` schema from the source. -/
def AMOAddonInfo : Schema :=
  .cons "guid" .tstr
  (.cons "categories" (.tdict .tstr (.tlist .tstr))
  (.cons "default_locale" .tstr
  (.cons "description" (.tdict .tstr .tstr)
  (.cons "name" (.tdict .tstr .tstr)
  (.cons "current_version" (.tschema AMOAddonVersion)
  (.cons "ratings" (.tdict .tstr .tfloat)
  (.cons "summary" (.tdict .tstr .tstr)
  (.cons "tags" (.tlist .tstr)
  (.cons "weekly_downloads" .tint .nil)))))))))

/-- Coerce every element of an iterated value
(`[fix_types(j, attr_name, item_type) for j in value]`). -/
def mapCoerce (f : PyValue → Option PyValue) : PyList → Option PyList
  | .nil => some .nil
  | .cons v rest => do
      let w ← f v
      let ws ← mapCoerce f rest
      pure (.cons w ws)

/-- Coerce the keys and values of a dict's items
(`[(fix_types(k, ...), fix_types(v, ...)) for k, v in value.items()]`). -/
def mapCoercePairs (fk fv : PyValue → Option PyValue) : PyPairs → Option PyPairs
  | .nil => some .nil
  | .cons k v rest => do
      let k' ← fk k
      let v' ← fv v
      let rest' ← mapCoercePairs fk fv rest
      pure (.cons k' v' rest')

mutual

/-- The source's `fix_types(value, attr_name, type_def)` (the `attr_name`
argument is only used in log output and is dropped). `none` models an
uncaught exception inside the call:

* nested schema: recursive `marshal` (raises on a value with no `.get`);
* `typing.List[T]`: iterate `value` and coerce each element (raises on a
  non-iterable value);
* `typing.Dict[K, V]`: `None` passes through; otherwise `.items()` of the
  value (raises on a non-dict) is coerced pairwise and rebuilt with
  `dict(...)` (raises on an unhashable coerced key);
* scalar kinds: apply the Python constructor from the `serializers` table. -/
def fix_types : TypeDef → PyValue → Option PyValue
  | .tschema s => fun v =>
      match v with
      | .dict kvs => (marshalFields s kvs .nil).map .dict
      | _ => none
  | .tlist t => fun v => do
      let elems ← pyIter v
      let ws ← mapCoerce (fix_types t) elems
      pure (.list ws)
  | .tdict tk tv => fun v =>
      match v with
      | .null => some .null
      | .dict kvs => do
          let ps ← mapCoercePairs (fix_types tk) (fix_types tv) kvs
          let d ← pyDictOfPairs ps
          pure (.dict d)
      | _ => none
  | .tstr => fun v => some (.str (pyStr v))
  | .tint => fun v => (pyInt v).map .int
  | .tfloat => fun v => (pyFloat v).map .float
  | .tbool => fun v => some (.bool (pyBool v))

/-- The `for attr_name, type_def in schema.meta.items()` loop of `marshal`,
accumulating the output dict `obj`. -/
def marshalFields : Schema → PyPairs → PyPairs → Option PyPairs
  | .nil, _, obj => some obj
  | .cons name t rest, kvs, obj =>
      match pyGet kvs (.str name) with
      | none => marshalFields rest kvs obj
      | some v =>
          match fix_types t v with
          | none => none
          | some w => marshalFields rest kvs (dictInsert obj (.str name) w)

end

/-- The source's `marshal(schema, json_data)`: `json_data.get` raises on a
non-dict, then the field loop builds `obj`. -/
def marshal (s : Schema) (jd : PyValue) : Option PyValue :=
  match jd with
  | .dict kvs => (marshalFields s kvs .nil).map .dict
  | _ => none

/-- Applying `fix_types` to a nested schema is `marshal` of that schema. -/
theorem fix_types_tschema (s : Schema) (v : PyValue) :
    fix_types (.tschema s) v = marshal s v := by
  cases v <;> rfl

/-! ### JSON round trip (`json.dumps` then `json.loads`)

The spec's `marshal_to_json` is not part of the repository source; it is
modelled from the Python `json` module's semantics: scalars and strings
survive unchanged, dict keys are rendered to the strings `json.dumps`
emits (`str`/`int`/`float`/`bool`/`None` keys; any other key raises), and
`json.loads` rebuilds dicts with last-value-wins on duplicate keys. -/

/-- The string `json.dumps` uses for a dict key. -/
def keyToStr : PyValue → Option String
  | .null => some "null"
  | .bool b => some (if b then "true" else "false")
  | .int n => some (intToStr n)
  | .float f => some (pfloatToJson f)
  | .str s => some s
  | .list _ => none
  | .dict _ => none

mutual

/-- Model of `json.loads(json.dumps v)`; `none` models `json.dumps` raising. -/
def jsonRender : PyValue → Option PyValue
  | .null => some .null
  | .bool b => some (.bool b)
  | .int n => some (.int n)
  | .float q => some (.float q)
  | .str s => some (.str s)
  | .list xs => (jsonRenderList xs).map .list
  | .dict kvs => do
      let ps ← jsonRenderPairs kvs
      let d ← pyDictOfPairs ps
      pure (.dict d)

/-- Elementwise rendering of a list. -/
def jsonRenderList : PyList → Option PyList
  | .nil => some .nil
  | .cons v rest => do
      let v' ← jsonRender v
      let rest' ← jsonRenderList rest
      pure (.cons v' rest')

/-- Pairwise rendering of dict entries (keys become strings), before the
`json.loads` dict rebuild. -/
def jsonRenderPairs : PyPairs → Option PyPairs
  | .nil => some .nil
  | .cons k v rest => do
      let ks ← keyToStr k
      let v' ← jsonRender v
      let rest' ← jsonRenderPairs rest
      pure (.cons (.str ks) v' rest')

end

/-! ### Well-formedness predicates -/

/-- Is the value a Python `str`? -/
def isStrB : PyValue → Bool
  | .str _ => true
  | _ => false

mutual

/-- Whether `v` is (the `json.loads` image of) a JSON document: every dict key at
every depth is a string. -/
def jsonDocB : PyValue → Bool
  | .list xs => jsonDocListB xs
  | .dict kvs => jsonDocPairsB kvs
  | _ => true

/-- All elements are JSON documents. -/
def jsonDocListB : PyList → Bool
  | .nil => true
  | .cons v rest => jsonDocB v && jsonDocListB rest

/-- All keys are strings and all values are JSON documents. -/
def jsonDocPairsB : PyPairs → Bool
  | .nil => true
  | .cons k v rest => isStrB k && jsonDocB v && jsonDocPairsB rest

end

mutual

/-- No `mapping-of` descriptor anywhere in the type uses the boolean kind
as its key kind. -/
def noBoolKeyT : TypeDef → Bool
  | .tlist t => noBoolKeyT t
  | .tdict k v => decide (k ≠ .tbool) && noBoolKeyT k && noBoolKeyT v
  | .tschema s => noBoolKeyS s
  | _ => true

/-- The `noBoolKeyT` test over every field of a schema. -/
def noBoolKeyS : Schema → Bool
  | .nil => true
  | .cons _ t rest => noBoolKeyT t && noBoolKeyS rest

end

/-- Declared field names of a schema, in order. -/
def namesOf : Schema → List String
  | .nil => []
  | .cons name _ rest => name :: namesOf rest

mutual

/-- Every schema nested in the type has pairwise-distinct field names
(automatic for the source's class `meta` dicts). -/
def nodupT : TypeDef → Bool
  | .tlist t => nodupT t
  | .tdict k v => nodupT k && nodupT v
  | .tschema s => nodupS s
  | _ => true

/-- Distinct field names, recursively. -/
def nodupS : Schema → Bool
  | .nil => true
  | .cons name t rest =>
      !(namesOf rest).contains name && nodupT t && nodupS rest

end

/-! ### Python equality (`==`)

`pyEq` models Python `==` on the values of the model: `None` equals only
itself, numbers compare across `bool`/`int`/`float` (`True == 1 == 1.0`),
NaN compares unequal to everything including itself, strings compare by
content, lists pointwise, and dicts by length plus per-entry `==`-based
key lookup. Python containers first test object identity (`x is y or
x == y`); the claims compare records whose leaves are freshly built on
each side (the second marshal's values all come out of `json.loads`), so
the identity shortcut never fires and is not modelled. -/

/-- Python `==` on floats: NaN is unequal to everything, including
itself. -/
def pfloatEq : PFloat → PFloat → Bool
  | .finite a, .finite b => decide (a = b)
  | .inf, .inf => true
  | .ninf, .ninf => true
  | _, _ => false

/-- The numeric value of `bool`/`int`/`float` (Python's numeric tower for
`==`). -/
def asNum : PyValue → Option PFloat
  | .bool b => some (.finite (if b then 1 else 0))
  | .int n => some (.finite (n : Rat))
  | .float f => some f
  | _ => none

/-- Numeric comparison of a float against any value. -/
def numEqWith (f : PFloat) (w : PyValue) : Bool :=
  match asNum w with
  | some g => pfloatEq f g
  | none => false

mutual

/-- Python `==` on the values of the model. -/
def pyEq : PyValue → PyValue → Bool
  | .null, w => match w with | .null => true | _ => false
  | .bool a, w => numEqWith (.finite (if a then 1 else 0)) w
  | .int n, w => numEqWith (.finite (n : Rat)) w
  | .float f, w => numEqWith f w
  | .str s, w => match w with | .str t => decide (s = t) | _ => false
  | .list xs, w => match w with | .list ys => pyEqL xs ys | _ => false
  | .dict a, w =>
      match w with
      | .dict b => decide (a.keys.length = b.keys.length) && pyEqP a b
      | _ => false
termination_by a b => sizeOf a + sizeOf b
decreasing_by all_goals simp_wf; all_goals omega

/-- Pointwise Python `==` on lists. -/
def pyEqL : PyList → PyList → Bool
  | .nil, ys => match ys with | .nil => true | _ => false
  | .cons v rest, ys =>
      match ys with
      | .cons w r2 => pyEq v w && pyEqL rest r2
      | .nil => false
termination_by a b => sizeOf a + sizeOf b
decreasing_by all_goals simp_wf; all_goals omega

/-- Every entry of the first dict is `==`-present in the second (with the
length check in `pyEq`, Python dict equality). -/
def pyEqP : PyPairs → PyPairs → Bool
  | .nil, _ => true
  | .cons k v rest, b => pyMemKV k v b && pyEqP rest b
termination_by a b => sizeOf a + sizeOf b
decreasing_by all_goals simp_wf; all_goals omega

/-- Python `k in d and d[k] == v`: find the first `==`-equal key and
compare its value. -/
def pyMemKV (k v : PyValue) : PyPairs → Bool
  | .nil => false
  | .cons k2 v2 rest => if pyEq k k2 then pyEq v v2 else pyMemKV k v rest
termination_by b => sizeOf k + sizeOf v + sizeOf b
decreasing_by all_goals simp_wf; all_goals omega

end

mutual

/-- No NaN float anywhere in the value (Python `==` is reflexive away
from NaN, so equality of the marshalled record with itself needs this). -/
def noNanV : PyValue → Bool
  | .float .nan => false
  | .list xs => noNanL xs
  | .dict kvs => noNanP kvs
  | _ => true

/-- No NaN in any element. -/
def noNanL : PyList → Bool
  | .nil => true
  | .cons v rest => noNanV v && noNanL rest

/-- No NaN in any key or value. -/
def noNanP : PyPairs → Bool
  | .nil => true
  | .cons k v rest => noNanV k && noNanV v && noNanP rest

end

/-- No key of the entry list is `==`-equal to `k`, in either
orientation. -/
def noKeyEq (k : PyValue) : PyPairs → Bool
  | .nil => true
  | .cons k2 _ rest => !(pyEq k k2) && !(pyEq k2 k) && noKeyEq k rest

/-- The dict's keys are pairwise `==`-inequivalent (true of every dict a
real Python program holds, since Python dicts deduplicate keys by
`hash`/`==`). -/
def keysSepP : PyPairs → Bool
  | .nil => true
  | .cons k _ rest => noKeyEq k rest && keysSepP rest

mutual

/-- Every dict nested in the value has pairwise `==`-inequivalent keys. -/
def canonV : PyValue → Bool
  | .list xs => canonL xs
  | .dict kvs => keysSepP kvs && canonP kvs
  | _ => true

/-- The `canonV` test on every element. -/
def canonL : PyList → Bool
  | .nil => true
  | .cons v rest => canonV v && canonL rest

/-- The `canonV` test on every key and value. -/
def canonP : PyPairs → Bool
  | .nil => true
  | .cons k v rest => canonV k && canonV v && canonP rest

end

/-- Entry membership in a dict's entry list. -/
def entryMem (k v : PyValue) : PyPairs → Prop
  | .nil => False
  | .cons k2 v2 rest => (k2 = k ∧ v2 = v) ∨ entryMem k v rest

/-! ### The cache (`tinydb` / `Cache`) -/

/-- Exceptions distinguished by the model. -/
inductive PyErr where
  | keyError
  | typeError
  | indexError
  | valueError
  deriving DecidableEq

/-- The contents of a cache directory: filename to stored document. The
file body is `json.dumps(data)`; the model stores the document itself. -/
abbrev CacheState := List (String × PyValue)

/-- Write/overwrite a file (an existing name keeps its position). -/
def storeWrite : CacheState → String → PyValue → CacheState
  | [], fname, v => [(fname, v)]
  | (f, w) :: rest, fname, v =>
      if f = fname then (f, v) :: rest else (f, w) :: storeWrite rest fname v

/-- Python subscript `v[k]`: dict lookup (`KeyError` when absent), list
and string indexing with negative-index wraparound (`IndexError` out of
range), `TypeError` otherwise. -/
def pyIndex (len : Nat) (i : Int) : Option Nat :=
  if 0 ≤ i then (if i < (len : Int) then some i.toNat else none)
  else (if -i ≤ (len : Int) then some (len - (-i).toNat) else none)

/-- Python `v[k]`. -/
def pyGetItem : PyValue → PyValue → Except PyErr PyValue
  | .dict kvs, k =>
      match pyGet kvs k with
      | some v => .ok v
      | none => .error .keyError
  | .list xs, .int i =>
      match pyIndex xs.length i with
      | some n =>
          match xs.get? n with
          | some v => .ok v
          | none => .error .indexError
      | none => .error .indexError
  | .list _, _ => .error .typeError
  | .str s, .int i =>
      match pyIndex s.data.length i with
      | some n =>
          match s.data.get? n with
          | some c => .ok (.str ⟨[c]⟩)
          | none => .error .indexError
      | none => .error .indexError
  | .str _, _ => .error .typeError
  | _, _ => .error .typeError

/-- The cache filename for a guid value (`"%s.json" % guid`, joined onto
the store's directory, which the `CacheState` itself stands for). -/
def cacheFname (g : PyValue) : String := pyStr g ++ ".json"

/-- Model of `Cache.put(data)`: look up `data['guid']` (raising `KeyError` when
absent, before any file is opened), then write the document under
`"{guid}.json"`. -/
def cachePut (st : CacheState) (data : PyValue) : Except PyErr CacheState :=
  match pyGetItem data (.str "guid") with
  | .error e => .error e
  | .ok guid => .ok (storeWrite st (cacheFname guid) data)

/-- Run `Cache.put` and recover the resulting directory contents: on an
exception nothing has been written, so the contents are unchanged. -/
def runPut (st : CacheState) (data : PyValue) : CacheState :=
  match cachePut st data with
  | .ok st' => st'
  | .error _ => st

/-! ### The fetch pipeline (`fetch_pages`, `_handle_responses`)

Network behaviour is abstracted as a function from URL to outcome: the
worker either raises (a `requests` exception, collected by
`p.exceptions()`) or completes with a response carrying an HTTP status
and a body (`none` standing for a body `json.loads` cannot decode).
`p.responses()` yields completions in a nondeterministic order; the model
fixes URL order, and every verified statement is insensitive to it. -/

/-- Outcome of one fetch attempt. -/
inductive NetOutcome where
  | exc
  | resp (status : Nat) (body : Option PyValue)
  deriving DecidableEq

/-- Did the fetch raise? -/
def NetOutcome.isExc : NetOutcome → Bool
  | .exc => true
  | .resp _ _ => false

/-- A completed response as the handlers see it (`resp.url` is the echoed
request URL). -/
structure HResp where
  url : String
  status : Nat
  body : Option PyValue
  deriving DecidableEq

/-- The `p.responses()` list for a pool dispatched over `urls` under `net`. -/
def poolResponses (urls : List String) (net : String → NetOutcome) :
    List HResp :=
  urls.filterMap fun u =>
    match net u with
    | .exc => none
    | .resp st body => some ⟨u, st, body⟩

/-- The URLs of `p.exceptions()` for a pool dispatched over `urls`. -/
def poolExceptionUrls (urls : List String) (net : String → NetOutcome) :
    List String :=
  urls.filter fun u => (net u).isExc

/-- The `for record in results` loop of `_handle_responses`: each record's
`guid` is read and the record written to the cache. The surrounding
`try`/`except` is outside this loop, so the first raising record aborts
the rest of the page while keeping earlier writes. -/
def putRecords : PyList → CacheState → CacheState × List PyValue
  | .nil, st => (st, [])
  | .cons r rest, st =>
      match pyGetItem r (.str "guid") with
      | .error _ => (st, [])
      | .ok g =>
          let st' := storeWrite st (cacheFname g) r
          let (st'', gs) := putRecords rest st'
          (st'', g :: gs)

/-- One iteration of `_handle_responses`'s response loop: non-200 statuses
are skipped silently; a body that fails to decode or lacks `results`
is skipped by the `except` clause. -/
def handleOne (r : HResp) (st : CacheState) : CacheState × List PyValue :=
  if r.status == 200 then
    match r.body with
    | none => (st, [])
    | some j =>
        match pyGetItem j (.str "results") with
        | .error _ => (st, [])
        | .ok results =>
            match pyIter results with
            | none => (st, [])
            | some rs => putRecords rs st
  else (st, [])

/-- Model of `_handle_responses(p, db)`: fold the response loop, collecting the
`guids` list it returns. -/
def handleResponses : List HResp → CacheState → CacheState × List PyValue
  | [], st => (st, [])
  | r :: rest, st =>
      let (st', gs) := handleOne r st
      let (st'', gs') := handleResponses rest st'
      (st'', gs ++ gs')

/-- The `DEFAULT_AMO_REQUEST_URI` constant from the source. -/
def DEFAULT_AMO_REQUEST_URI : String :=
  "https://addons.mozilla.org/api/v3/addons/search/"

/-- The `QUERY_PARAMS` constant from the source. -/
def QUERY_PARAMS : String := "?app=firefox&sort=created&type=extension"

/-- Decimal rendering of a page number (`"%d" % i`). -/
def natToStr (n : Nat) : String := ⟨natToChars n⟩

/-- The crawl URLs for pages `1 .. page_count`. -/
def pageUrls (pageCount : Nat) : List String :=
  (List.range pageCount).map fun i =>
    DEFAULT_AMO_REQUEST_URI ++ QUERY_PARAMS ++ "&page=" ++ natToStr (i + 1)

/-- The URLs `fetch_pages` re-dispatches in its second round: exactly
`p.exceptions()` of the first pool. -/
def retriedUrls (pageCount : Nat) (net1 : String → NetOutcome) :
    List String :=
  poolExceptionUrls (pageUrls pageCount) net1

/-- Model of `AMODatabase.fetch_pages`: wipe the cache, dispatch all page URLs,
handle the responses, re-dispatch the exceptioned URLs once under the
second round's network behaviour, and handle those responses into the
same cache. Total by construction: no exception escapes. -/
def fetch_pages (pageCount : Nat) (net1 net2 : String → NetOutcome) :
    CacheState :=
  let st1 := (handleResponses (poolResponses (pageUrls pageCount) net1) []).1
  (handleResponses (poolResponses (retriedUrls pageCount net1) net2) st1).1

/-! ### The version-enrichment handler (`_handle_last_version_responses`) -/

/-- Find the first occurrence of `sep`: `some (before, after)` splits the
input around it. -/
def breakAtSub (sep : List Char) : List Char → Option (List Char × List Char)
  | [] => none
  | c :: rest =>
      if sep.isPrefixOf (c :: rest) then some ([], (c :: rest).drop sep.length)
      else (breakAtSub sep rest).map fun p => (c :: p.1, p.2)

/-- A successful `breakAtSub` with a nonempty separator strictly shrinks
the remainder. -/
theorem breakAtSub_length (sep : List Char) (hsep : sep ≠ []) :
    ∀ cs a b, breakAtSub sep cs = some (a, b) → b.length < cs.length := by
  intro cs
  induction cs with
  | nil => intro a b h; simp [breakAtSub] at h
  | cons c rest ih =>
      intro a b h
      rw [breakAtSub] at h
      by_cases hp : sep.isPrefixOf (c :: rest)
      · rw [if_pos hp] at h
        obtain ⟨rfl, rfl⟩ : a = [] ∧ b = (c :: rest).drop sep.length := by
          simpa using h.symm
        have hlen : sep.length ≠ 0 := fun h0 => hsep (List.eq_nil_of_length_eq_zero h0)
        simp only [List.length_drop, List.length_cons]
        omega
      · rw [if_neg hp, Option.map_eq_some'] at h
        obtain ⟨⟨a', b'⟩, hab, heq⟩ := h
        obtain ⟨rfl, rfl⟩ : a = c :: a' ∧ b = b' := by
          have h1 := congrArg Prod.fst heq
          have h2 := congrArg Prod.snd heq
          simp only at h1 h2
          exact ⟨h1.symm, h2.symm⟩
        have := ih _ _ hab
        simp only [List.length_cons]
        omega

/-- Python `s.split(sep)` for a nonempty separator: non-overlapping
left-to-right splitting. -/
def pySplit (sep cs : List Char) : List (List Char) :=
  if hsep : sep = [] then [cs]
  else
    match hb : breakAtSub sep cs with
    | none => [cs]
    | some (a, b) => a :: pySplit sep b
termination_by cs.length
decreasing_by
  exact breakAtSub_length sep hsep cs a b hb

/-- Hex digit value for percent decoding. -/
def hexVal (c : Char) : Option Nat :=
  if 48 ≤ c.toNat ∧ c.toNat ≤ 57 then some (c.toNat - 48)
  else if 65 ≤ c.toNat ∧ c.toNat ≤ 70 then some (c.toNat - 55)
  else if 97 ≤ c.toNat ∧ c.toNat ≤ 102 then some (c.toNat - 87)
  else none

/-- Model of `urllib.parse.unquote`, decoding `%XX` escapes bytewise (multi-byte
UTF-8 sequences are outside the model; AMO guids only need ASCII). -/
def pyUnquoteAux : List Char → List Char
  | [] => []
  | '%' :: c1 :: c2 :: rest =>
      match hexVal c1, hexVal c2 with
      | some h, some l => Char.ofNat (16 * h + l) :: pyUnquoteAux rest
      | _, _ => '%' :: pyUnquoteAux (c1 :: c2 :: rest)
  | c :: rest => c :: pyUnquoteAux rest

/-- Model of `urllib.parse.unquote` on a string. -/
def pyUnquote (s : String) : String := ⟨pyUnquoteAux s.data⟩

/-- The body of `_handle_last_version_responses`'s `try` block for one
response: decode the body, read `results`, cut the guid out of the echoed
URL with the two `split` calls and unquote it, read
`results[-1]['files'][0]['created']`, and `put` the
`{guid, create_date}` record. -/
def lastVersionPut (r : HResp) (db : CacheState) : Except PyErr CacheState :=
  match r.body with
  | none => .error .valueError
  | some j =>
  match pyGetItem j (.str "results") with
  | .error e => .error e
  | .ok results =>
  match (pySplit "addon/".data r.url.data).get? 1 with
  | none => .error .indexError
  | some seg =>
  let g0 := (pySplit "/versions".data seg).headD []
  let guid := pyUnquote ⟨g0⟩
  match pyGetItem results (.int (-1)) with
  | .error e => .error e
  | .ok lastR =>
  match pyGetItem lastR (.str "files") with
  | .error e => .error e
  | .ok files =>
  match pyGetItem files (.int 0) with
  | .error e => .error e
  | .ok f0 =>
  match pyGetItem f0 (.str "created") with
  | .error e => .error e
  | .ok cd =>
  cachePut db (.dict
    (.cons (.str "guid") (.str guid) (.cons (.str "create_date") cd .nil)))

/-- One iteration of `_handle_last_version_responses`: non-200 responses
are ignored and any exception is logged and skipped. -/
def handleLastOne (db : CacheState) (r : HResp) : CacheState :=
  if r.status == 200 then
    match lastVersionPut r db with
    | .ok db' => db'
    | .error _ => db
  else db

/-- Model of `_handle_last_version_responses(p, db)`. -/
def handleLastVersionResponses (resps : List HResp) (db : CacheState) :
    CacheState :=
  resps.foldl handleLastOne db

/-! ### General lemmas about the embedded operations -/

/-- Structural recursion principle for `PyList` alone (the mutual recursor
has three motives, which `induction` cannot use directly). -/
def PyList.myrec {motive : PyList → Sort _} (nil : motive .nil)
    (cons : ∀ v rest, motive rest → motive (.cons v rest)) :
    ∀ xs : PyList, motive xs
  | .nil => nil
  | .cons v rest => cons v rest (PyList.myrec nil cons rest)

/-- Structural recursion principle for `PyPairs` alone. -/
def PyPairs.myrec {motive : PyPairs → Sort _} (nil : motive .nil)
    (cons : ∀ k v rest, motive rest → motive (.cons k v rest)) :
    ∀ kvs : PyPairs, motive kvs
  | .nil => nil
  | .cons k v rest => cons k v rest (PyPairs.myrec nil cons rest)

/-- Structural recursion principle for `Schema` alone. -/
def Schema.myrec {motive : Schema → Sort _} (nil : motive .nil)
    (cons : ∀ name t rest, motive rest → motive (.cons name t rest)) :
    ∀ s : Schema, motive s
  | .nil => nil
  | .cons name t rest => cons name t rest (Schema.myrec nil cons rest)

/-- Lookup after a dict insertion. -/
theorem pyGet_dictInsert (ps : PyPairs) (k v k' : PyValue) :
    pyGet (dictInsert ps k v) k' = if k' = k then some v else pyGet ps k' := by
  induction ps using PyPairs.myrec with
  | nil =>
      by_cases h : k' = k
      · subst h; simp [dictInsert, pyGet]
      · have h' : ¬ k = k' := fun hh => h hh.symm
        simp [dictInsert, pyGet, h, h']
  | cons k0 v0 rest ih =>
      by_cases h0 : k0 = k
      · subst h0
        by_cases h : k0 = k'
        · subst h
          simp [dictInsert, pyGet]
        · have h' : ¬ k' = k0 := fun hh => h hh.symm
          simp [dictInsert, pyGet, h, h']
      · by_cases h : k0 = k'
        · have hk : ¬ k' = k := fun hh => h0 (h.trans hh)
          simp [dictInsert, pyGet, h0, h, hk]
        · simp [dictInsert, pyGet, h0, h, ih]

/-- Elementwise characterisation of a successful `mapCoerce`. -/
theorem mapCoerce_spec (f : PyValue → Option PyValue) :
    ∀ xs ws, mapCoerce f xs = some ws →
      ws.length = xs.length ∧
      ∀ i, i < xs.length →
        ∃ v y, xs.get? i = some v ∧ ws.get? i = some y ∧ f v = some y := by
  intro xs
  induction xs using PyList.myrec with
  | nil =>
      intro ws h
      simp [mapCoerce] at h
      subst h
      exact ⟨rfl, fun i hi => absurd hi (by simp [PyList.length])⟩
  | cons v rest ih =>
      intro ws h
      simp only [mapCoerce, Option.bind_eq_bind, Option.bind_eq_some] at h
      obtain ⟨w, hw, ws', hws', hpure⟩ := h
      have hws : ws = PyList.cons w ws' := by simpa using hpure.symm
      subst hws
      obtain ⟨hlen, helem⟩ := ih ws' hws'
      refine ⟨by simp [PyList.length, hlen], ?_⟩
      intro i hi
      cases i with
      | zero => exact ⟨v, w, rfl, rfl, hw⟩
      | succ i =>
          have hi' : i < rest.length := by
            simpa [PyList.length] using hi
          obtain ⟨v', y, h1, h2, h3⟩ := helem i hi'
          exact ⟨v', y, h1, h2, h3⟩

/-! ### Claim C10: `Cache.put` on a guid-less record -/

/-- C10: for every record lacking a `'guid'` key, `Cache.put` raises
`KeyError` from the `data['guid']` lookup, which the source performs
before opening or writing any file; hence the store's on-disk contents
are unchanged by such a put. -/
theorem Cache_put_missing_guid (st : CacheState) (kvs : PyPairs)
    (h : pyGet kvs (.str "guid") = none) :
    cachePut st (.dict kvs) = .error .keyError ∧ runPut st (.dict kvs) = st := by
  have hget : pyGetItem (.dict kvs) (.str "guid") = .error .keyError := by
    simp [pyGetItem, h]
  constructor
  · simp [cachePut, hget]
  · simp [runPut, cachePut, hget]

/-- Witness for `Cache_put_missing_guid` at the empty record and empty
store. -/
theorem Cache_put_missing_guid_witness :
    pyGet PyPairs.nil (.str "guid") = none ∧
      (cachePut ([] : CacheState) (.dict .nil) = .error .keyError ∧
        runPut ([] : CacheState) (.dict .nil) = ([] : CacheState)) :=
  ⟨rfl, Cache_put_missing_guid [] .nil rfl⟩

/-! ### Claim C4: `mapping-of` null passthrough -/

/-- C4: for every `mapping-of(K, V)` descriptor, `fix_types` maps JSON
null to null, and a field present with value null marshals to a
null-valued key, distinguishable from an absent field, which produces no
key at all. -/
theorem mapping_null_passthrough (K V : TypeDef) (f : String) :
    fix_types (.tdict K V) .null = some .null ∧
    marshal (.cons f (.tdict K V) .nil) (.dict (.cons (.str f) .null .nil))
      = some (.dict (.cons (.str f) .null .nil)) ∧
    marshal (.cons f (.tdict K V) .nil) (.dict .nil) = some (.dict .nil) := by
  refine ⟨rfl, ?_, rfl⟩
  simp [marshal, marshalFields, pyGet, fix_types, dictInsert]

/-- Witness for `mapping_null_passthrough` at `Dict[str, str]` and field
`"ratings"`. -/
theorem mapping_null_passthrough_witness :
    fix_types (.tdict .tstr .tstr) .null = some .null ∧
    marshal (.cons "ratings" (.tdict .tstr .tstr) .nil)
        (.dict (.cons (.str "ratings") .null .nil))
      = some (.dict (.cons (.str "ratings") .null .nil)) ∧
    marshal (.cons "ratings" (.tdict .tstr .tstr) .nil) (.dict .nil)
      = some (.dict .nil) :=
  mapping_null_passthrough .tstr .tstr "ratings"

/-! ### Claim C9: scalar kinds applied to null -/

/-- C9: null passthrough applies only to `mapping-of`: the scalar kinds
apply their Python constructor to `None`, so a present-but-null string
field marshals to `"None"`, a null boolean field to `False`, and a null
integer or float field raises, failing the record's marshal. -/
theorem scalar_null_coercion (f : String) :
    fix_types .tstr .null = some (.str "None") ∧
    fix_types .tbool .null = some (.bool false) ∧
    fix_types .tint .null = none ∧
    fix_types .tfloat .null = none ∧
    marshal (.cons f .tstr .nil) (.dict (.cons (.str f) .null .nil))
      = some (.dict (.cons (.str f) (.str "None") .nil)) ∧
    marshal (.cons f .tbool .nil) (.dict (.cons (.str f) .null .nil))
      = some (.dict (.cons (.str f) (.bool false) .nil)) ∧
    marshal (.cons f .tint .nil) (.dict (.cons (.str f) .null .nil)) = none ∧
    marshal (.cons f .tfloat .nil) (.dict (.cons (.str f) .null .nil)) = none := by
  refine ⟨rfl, rfl, rfl, rfl, ?_, ?_, ?_, ?_⟩ <;>
    simp [marshal, marshalFields, pyGet, fix_types, dictInsert, pyInt, pyFloat,
      pyStr, pyBool]

/-- Witness for `scalar_null_coercion` at field `"guid"`. -/
theorem scalar_null_coercion_witness :
    marshal (.cons "guid" .tstr .nil) (.dict (.cons (.str "guid") .null .nil))
      = some (.dict (.cons (.str "guid") (.str "None") .nil)) ∧
    marshal (.cons "guid" .tint .nil) (.dict (.cons (.str "guid") .null .nil))
      = none :=
  ⟨(scalar_null_coercion "guid").2.2.2.2.1,
    (scalar_null_coercion "guid").2.2.2.2.2.2.1⟩

/-! ### Claim C6: `sequence-of` coercion is pointwise -/

/-- C6: a successful `fix_types` on `sequence-of(T)` applied to a sequence
returns a sequence of exactly the same length whose `i`-th element is the
`T`-coercion of the `i`-th input element, for every index. -/
theorem seq_coerce (T : TypeDef) (xs : PyList) (w : PyValue)
    (h : fix_types (.tlist T) (.list xs) = some w) :
    ∃ ys : PyList, w = .list ys ∧ ys.length = xs.length ∧
      ∀ i, i < xs.length →
        ∃ v y, xs.get? i = some v ∧ ys.get? i = some y ∧
          fix_types T v = some y := by
  have h' : (mapCoerce (fix_types T) xs).bind (fun ws => some (.list ws))
      = some w := by
    simpa [fix_types, pyIter] using h
  cases hm : mapCoerce (fix_types T) xs with
  | none => rw [hm] at h'; simp at h'
  | some ws =>
      rw [hm] at h'
      simp at h'
      obtain ⟨hlen, helem⟩ := mapCoerce_spec (fix_types T) xs ws hm
      exact ⟨ws, h'.symm, hlen, helem⟩

/-- Witness for `seq_coerce` on `sequence-of(string)` applied to `[5]`. -/
theorem seq_coerce_witness :
    fix_types (.tlist .tstr) (.list (.cons (.int 5) .nil))
        = some (.list (.cons (.str "5") .nil)) ∧
      ∃ ys : PyList, (.list (.cons (.str "5") .nil) : PyValue) = .list ys ∧
        ys.length = (PyList.cons (.int 5) .nil).length ∧
        ∀ i, i < (PyList.cons (.int 5) .nil).length →
          ∃ v y, (PyList.cons (.int 5) .nil).get? i = some v ∧
            ys.get? i = some y ∧ fix_types .tstr v = some y :=
  ⟨rfl, seq_coerce .tstr (.cons (.int 5) .nil) (.list (.cons (.str "5") .nil)) rfl⟩

/-! ### Claim C3: output keys are exactly the declared-and-present fields -/

/-- The field loop's output keys are the accumulator's keys plus the
declared fields present in the input. -/
theorem marshalFields_keys :
    ∀ (s : Schema) (kvs acc obj : PyPairs),
      marshalFields s kvs acc = some obj →
      ∀ name : String,
        ((pyGet obj (.str name)).isSome ↔
          ((pyGet acc (.str name)).isSome ∨
            (name ∈ namesOf s ∧ (pyGet kvs (.str name)).isSome))) := by
  intro s
  induction s using Schema.myrec with
  | nil =>
      intro kvs acc obj h name
      simp only [marshalFields, Option.some.injEq] at h
      subst h
      simp [namesOf]
  | cons name0 t rest ih =>
      intro kvs acc obj h name
      rw [marshalFields] at h
      cases hrv : pyGet kvs (.str name0) with
      | none =>
          simp only [hrv] at h
          have := ih kvs acc obj h name
          by_cases hn : name = name0
          · subst hn
            have hnone : (pyGet kvs (.str name)).isSome = false := by
              rw [hrv]; rfl
            simp [namesOf, hnone] at this ⊢
            tauto
          · simp only [namesOf, List.mem_cons] at this ⊢
            constructor
            · intro hh
              rcases (this.mp hh) with h1 | ⟨h2, h3⟩
              · exact Or.inl h1
              · exact Or.inr ⟨Or.inr h2, h3⟩
            · intro hh
              rcases hh with h1 | ⟨h2 | h2, h3⟩
              · exact this.mpr (Or.inl h1)
              · exact absurd h2 hn
              · exact this.mpr (Or.inr ⟨h2, h3⟩)
      | some v =>
          simp only [hrv] at h
          cases hft : fix_types t v with
          | none => simp only [hft] at h; exact Option.noConfusion h
          | some w =>
              simp only [hft] at h
              have := ih kvs (dictInsert acc (.str name0) w) obj h name
              have hacc : (pyGet (dictInsert acc (.str name0) w)
                  (.str name)).isSome ↔
                  (name = name0 ∨ (pyGet acc (.str name)).isSome) := by
                rw [pyGet_dictInsert]
                by_cases hn : name = name0
                · subst hn; simp
                · have : ¬ (PyValue.str name = PyValue.str name0) := by
                    simpa using hn
                  simp [this, hn]
              rw [hacc] at this
              by_cases hn : name = name0
              · subst hn
                have hsome : (pyGet kvs (.str name)).isSome = true := by
                  rw [hrv]; rfl
                simp [namesOf, hsome] at this ⊢
                tauto
              · simp only [namesOf, List.mem_cons] at this ⊢
                constructor
                · intro hh
                  rcases this.mp hh with (h1 | h1) | ⟨h2, h3⟩
                  · exact absurd h1 hn
                  · exact Or.inl h1
                  · exact Or.inr ⟨Or.inr h2, h3⟩
                · intro hh
                  rcases hh with h1 | ⟨h2 | h2, h3⟩
                  · exact this.mpr (Or.inl (Or.inr h1))
                  · exact absurd h2 hn
                  · exact this.mpr (Or.inr ⟨h2, h3⟩)

/-- C3: a field name is a key of a successful `marshal(S, D)` output iff
it is declared in `S` and present as a key of `D`; in particular absent
fields are omitted entirely, never null-filled. -/
theorem marshal_presence (s : Schema) (kvs : PyPairs) (v : PyValue)
    (h : marshal s (.dict kvs) = some v) :
    ∃ obj : PyPairs, v = .dict obj ∧ ∀ name : String,
      ((pyGet obj (.str name)).isSome ↔
        (name ∈ namesOf s ∧ (pyGet kvs (.str name)).isSome)) := by
  simp only [marshal, Option.map_eq_some'] at h
  obtain ⟨obj, hobj, rfl⟩ := h
  refine ⟨obj, rfl, fun name => ?_⟩
  have := marshalFields_keys s kvs .nil obj hobj name
  simpa [pyGet] using this

/-- Witness for `marshal_presence`: `AMOAddonFile` against a document
carrying `id` only. -/
theorem marshal_presence_witness :
    marshal AMOAddonFile (.dict (.cons (.str "id") (.int 7) .nil))
        = some (.dict (.cons (.str "id") (.int 7) .nil)) ∧
      ∃ obj : PyPairs,
        (.dict (.cons (.str "id") (.int 7) .nil) : PyValue) = .dict obj ∧
        ∀ name : String,
          ((pyGet obj (.str name)).isSome ↔
            (name ∈ namesOf AMOAddonFile ∧
              (pyGet (.cons (.str "id") (.int 7) .nil) (.str name)).isSome)) :=
  ⟨rfl, marshal_presence AMOAddonFile (.cons (.str "id") (.int 7) .nil)
    (.dict (.cons (.str "id") (.int 7) .nil)) rfl⟩

/-! ### Claim C2: one malformed record aborts its page's remaining records -/

/-- C2 (code bug evidence): `_handle_responses` on a single 200 page whose
`results` are `[{guid: "a"}, {}, {guid: "c"}]` stores only `"a"`'s record:
the guid-less middle record raises `KeyError`, which is caught by the
per-response `except`, so the sibling record `"c"` after it is never
written — contradicting the per-record skip described by the spec and by
the handler's own `# Skip this record` comment. -/
theorem handle_responses_aborts_page :
    handleResponses
        [⟨"u", 200, some (.dict (.cons (.str "results")
            (.list (.cons (.dict (.cons (.str "guid") (.str "a") .nil))
              (.cons (.dict .nil)
                (.cons (.dict (.cons (.str "guid") (.str "c") .nil))
                  .nil)))) .nil))⟩]
        [] =
      ([("a.json", .dict (.cons (.str "guid") (.str "a") .nil))],
        [.str "a"]) := rfl

/-! ### Claim C1: which URLs the retry round re-dispatches -/

/-- The URLs that "failed" in the claim's sense: network exception or
non-200 HTTP status. -/
def claimFailedUrls (pageCount : Nat) (net : String → NetOutcome) :
    List String :=
  (pageUrls pageCount).filter fun u =>
    match net u with
    | .exc => true
    | .resp s _ => s != 200

/-- C1 counterexample: with one page whose fetch completes with HTTP 404,
the claim's failure set is that page's URL, but `fetch_pages` re-dispatches
nothing — `p.exceptions()` only holds raised requests, and a non-200
response is silently skipped, not retried. -/
theorem retry_nonok_counterexample :
    retriedUrls 1 (fun _ => .resp 404 none) = [] ∧
    claimFailedUrls 1 (fun _ => .resp 404 none) = pageUrls 1 ∧
    pageUrls 1 ≠ [] ∧
    retriedUrls 1 (fun _ => .resp 404 none) ≠
      claimFailedUrls 1 (fun _ => .resp 404 none) := by
  refine ⟨rfl, rfl, ?_, ?_⟩ <;> decide

/-- C1 amended: the second round re-dispatches exactly the URLs whose
first fetch raised a network exception (non-200 responses are not
retried); a URL that raises in both rounds contributes a response to
neither round, so its records are dropped; and the run is exactly these
two rounds handled into one store (`fetch_pages` is a total function, so
no exception escapes). -/
theorem retry_round (pageCount : Nat) (net1 net2 : String → NetOutcome) :
    (∀ u, u ∈ retriedUrls pageCount net1 ↔
      (u ∈ pageUrls pageCount ∧ (net1 u).isExc = true)) ∧
    (∀ u, (net1 u).isExc = true → (net2 u).isExc = true →
      u ∉ (poolResponses (pageUrls pageCount) net1).map HResp.url ∧
      u ∉ (poolResponses (retriedUrls pageCount net1) net2).map HResp.url) ∧
    fetch_pages pageCount net1 net2 =
      (handleResponses (poolResponses (retriedUrls pageCount net1) net2)
        (handleResponses (poolResponses (pageUrls pageCount) net1) []).1).1 := by
  refine ⟨?_, ?_, rfl⟩
  · intro u
    simp [retriedUrls, poolExceptionUrls, List.mem_filter]
  · intro u h1 h2
    constructor
    · intro hmem
      simp only [List.mem_map, poolResponses, List.mem_filterMap] at hmem
      obtain ⟨r, ⟨u', _, hmatch⟩, hurl⟩ := hmem
      cases hne : net1 u' with
      | exc => rw [hne] at hmatch; exact Option.noConfusion hmatch
      | resp s b =>
          rw [hne] at hmatch
          have : r = ⟨u', s, b⟩ := by simpa using hmatch.symm
          subst this
          have : u' = u := hurl
          subst this
          rw [hne] at h1
          exact Bool.noConfusion h1
    · intro hmem
      simp only [List.mem_map, poolResponses, List.mem_filterMap] at hmem
      obtain ⟨r, ⟨u', _, hmatch⟩, hurl⟩ := hmem
      cases hne : net2 u' with
      | exc => rw [hne] at hmatch; exact Option.noConfusion hmatch
      | resp s b =>
          rw [hne] at hmatch
          have : r = ⟨u', s, b⟩ := by simpa using hmatch.symm
          subst this
          have : u' = u := hurl
          subst this
          rw [hne] at h2
          exact Bool.noConfusion h2

/-- Witness for `retry_round`: a run where every first-round fetch raises
re-dispatches every page URL. -/
theorem retry_round_witness :
    retriedUrls 1 (fun _ => NetOutcome.exc) = pageUrls 1 ∧
    (∀ u, u ∈ retriedUrls 1 (fun _ => NetOutcome.exc) ↔
      (u ∈ pageUrls 1 ∧
        ((fun _ => NetOutcome.exc) u : NetOutcome).isExc = true)) :=
  ⟨by decide, (retry_round 1 (fun _ => NetOutcome.exc)
    (fun _ => NetOutcome.exc)).1⟩

/-! ### Claim C7: substring machinery for the guid extraction -/

/-- Whether `sep` occurs as a contiguous substring. -/
def hasSub (sep : List Char) : List Char → Bool
  | [] => sep.isEmpty
  | c :: rest => sep.isPrefixOf (c :: rest) || hasSub sep rest

/-- No occurrence of `sep` starts strictly inside `a` when the input
continues with `sep` itself (straddling occurrences included). -/
def noStartIn (sep : List Char) : List Char → Bool
  | [] => true
  | c :: rest => !(sep.isPrefixOf ((c :: rest) ++ sep)) && noStartIn sep rest

/-- Whether `sep` has no nontrivial self-overlap: no proper nonempty suffix of
`sep` is a prefix of `sep`. -/
def selfOverlapFreeB (sep : List Char) : Bool :=
  (List.range sep.length).all fun k => k == 0 || !((sep.drop k).isPrefixOf sep)

/-- A prefix test only inspects as many characters as the candidate
prefix has. -/
theorem isPrefixOf_append_of_le (x : List Char) :
    ∀ (y z : List Char), x.length ≤ y.length →
      x.isPrefixOf (y ++ z) = x.isPrefixOf y := by
  induction x with
  | nil => intro y z _; simp [List.isPrefixOf]
  | cons a x' ih =>
      intro y z h
      cases y with
      | nil => simp at h
      | cons b y' =>
          simp only [List.cons_append, List.isPrefixOf, List.append_eq]
          rw [ih y' z (by simpa using h)]

/-- A list is a prefix of itself followed by anything. -/
theorem isPrefixOf_self_append (x t : List Char) :
    x.isPrefixOf (x ++ t) = true := by
  induction x with
  | nil => simp [List.isPrefixOf]
  | cons a x' ih => simp [List.isPrefixOf, ih]

/-- Without an occurrence there is nothing to break at. -/
theorem breakAtSub_eq_none (sep : List Char) :
    ∀ cs, hasSub sep cs = false → breakAtSub sep cs = none := by
  intro cs
  induction cs with
  | nil => intro _; rfl
  | cons c rest ih =>
      intro h
      simp only [hasSub, Bool.or_eq_false_iff] at h
      rw [breakAtSub, if_neg (by simp [h.1]), ih h.2]
      rfl

/-- The function `breakAtSub` finds a marked occurrence when none starts earlier. -/
theorem breakAtSub_cleanSplit (sep : List Char) (hsep : sep ≠ []) :
    ∀ a b, noStartIn sep a = true →
      breakAtSub sep (a ++ (sep ++ b)) = some (a, b) := by
  intro a
  induction a with
  | nil =>
      intro b _
      simp only [List.nil_append]
      cases sep with
      | nil => exact absurd rfl hsep
      | cons s0 sep' =>
          have hcons : (s0 :: sep') ++ b = s0 :: (sep' ++ b) := rfl
          rw [hcons, breakAtSub,
            if_pos (by rw [← hcons]; exact isPrefixOf_self_append _ _), ← hcons,
            List.drop_left]
  | cons c a' ih =>
      intro b hno
      simp only [noStartIn, Bool.and_eq_true, Bool.not_eq_true'] at hno
      obtain ⟨hnp, hno'⟩ := hno
      have hnp' : sep.isPrefixOf ((c :: a') ++ (sep ++ b)) = false := by
        rw [← List.append_assoc,
          isPrefixOf_append_of_le sep ((c :: a') ++ sep) b
            (by simp [List.length_append]; omega)]
        exact hnp
      have hcons : (c :: a') ++ (sep ++ b) = c :: (a' ++ (sep ++ b)) := rfl
      rw [hcons, breakAtSub, if_neg (by rw [← hcons, hnp']; simp), ih b hno']
      rfl

/-- For a self-overlap-free separator, absence of any occurrence implies
no occurrence can start inside the list even when `sep` follows it. -/
theorem noStartIn_of_hasSub (sep : List Char) (hov : selfOverlapFreeB sep = true) :
    ∀ a, hasSub sep a = false → noStartIn sep a = true := by
  intro a
  induction a with
  | nil => intro _; rfl
  | cons c rest ih =>
      intro h
      simp only [hasSub, Bool.or_eq_false_iff] at h
      obtain ⟨h1, h2⟩ := h
      simp only [noStartIn, Bool.and_eq_true, Bool.not_eq_true']
      refine ⟨?_, ih h2⟩
      by_cases hlen : sep.length ≤ (c :: rest).length
      · rw [isPrefixOf_append_of_le sep (c :: rest) sep hlen]
        exact h1
      · cases hP : sep.isPrefixOf ((c :: rest) ++ sep) with
        | false => rfl
        | true =>
            exfalso
            have hk1 : 1 ≤ (c :: rest).length := by simp
            have hklt : (c :: rest).length < sep.length := by omega
            have hpre : sep <+: ((c :: rest) ++ sep) :=
              List.isPrefixOf_iff_prefix.mp hP
            obtain ⟨r, hr⟩ := hpre
            have hdrop := congrArg (List.drop (c :: rest).length) hr
            rw [List.drop_append_of_le_length (le_of_lt hklt),
              List.drop_left] at hdrop
            have hsub : (sep.drop (c :: rest).length).isPrefixOf sep = true :=
              List.isPrefixOf_iff_prefix.mpr ⟨r, hdrop⟩
            have hall := (List.all_eq_true.mp hov) (c :: rest).length
              (List.mem_range.mpr hklt)
            simp only [Bool.or_eq_true, beq_iff_eq, Bool.not_eq_true'] at hall
            rcases hall with h0 | hfalse
            · omega
            · rw [hsub] at hfalse; exact Bool.noConfusion hfalse

/-- Unfolding `pySplit` when nothing breaks. -/
theorem pySplit_none (sep cs : List Char) (hsep : ¬ sep = [])
    (h : breakAtSub sep cs = none) : pySplit sep cs = [cs] := by
  rw [pySplit, dif_neg hsep]
  split
  · rfl
  · rename_i a b heq
    rw [heq] at h
    exact Option.noConfusion h

/-- Unfolding `pySplit` at the first occurrence. -/
theorem pySplit_some (sep cs a b : List Char) (hsep : ¬ sep = [])
    (h : breakAtSub sep cs = some (a, b)) :
    pySplit sep cs = a :: pySplit sep b := by
  rw [pySplit, dif_neg hsep]
  split
  · rename_i heq
    rw [heq] at h
    exact Option.noConfusion h
  · rename_i a' b' heq
    rw [heq] at h
    have : a' = a ∧ b' = b := by
      constructor
      · simpa using congrArg (fun p => p.map Prod.fst) h
      · simpa using congrArg (fun p => p.map Prod.snd) h
    rw [this.1, this.2]

/-- The last element sits at index `length - 1`. -/
theorem PyList.get?_last :
    ∀ (xs : PyList) (lastR : PyValue), xs.getLast? = some lastR →
      xs.get? (xs.length - 1) = some lastR := by
  intro xs
  induction xs using PyList.myrec with
  | nil => intro lastR h; exact Option.noConfusion h
  | cons v rest ih =>
      intro lastR h
      cases rest with
      | nil =>
          simp only [PyList.getLast?] at h
          simpa [PyList.length, PyList.get?] using h
      | cons w rest' =>
          rw [PyList.getLast?] at h
          have := ih lastR h
          have hlen : (PyList.cons v (.cons w rest')).length - 1
              = ((PyList.cons w rest').length - 1) + 1 := by
            simp [PyList.length]
          rw [hlen]
          simpa [PyList.get?] using this

/-- Python `xs[-1]` is the last element. -/
theorem pyGetItem_neg_one (xs : PyList) (lastR : PyValue)
    (h : xs.getLast? = some lastR) :
    pyGetItem (.list xs) (.int (-1)) = .ok lastR := by
  have hlen : 1 ≤ xs.length := by
    cases xs with
    | nil => exact Option.noConfusion h
    | cons v rest => simp [PyList.length]
  have hidx : pyIndex xs.length (-1) = some (xs.length - 1) := by
    simp only [pyIndex]
    rw [if_neg (by omega), if_pos (by omega)]
    rfl
  simp only [pyGetItem, hidx, PyList.get?_last xs lastR h]

/-- Python `xs[0]` is the first element. -/
theorem pyGetItem_zero (f0 : PyValue) (fs : PyList) :
    pyGetItem (.list (.cons f0 fs)) (.int 0) = .ok f0 := by
  have hidx : pyIndex (PyList.cons f0 fs).length 0 = some 0 := by
    simp only [pyIndex, PyList.length]
    rw [if_pos (by omega), if_pos (by push_cast; omega)]
    rfl
  simp only [pyGetItem, hidx, PyList.get?]

/-- C7: for a 200-status last-page response whose echoed URL has the shape
the enrichment pass constructs, `_handle_last_version_responses` stores
exactly `{guid, create_date}` under `{guid}.json`, where `guid` is the
percent-decoded URL segment between `"addon/"` and `"/versions"` and
`create_date` is the `created` timestamp of the first file of the last
element of the response's `results` array. The two `hasSub` hypotheses
state that the guid segment is unambiguous (no other occurrence of either
delimiter), which is what makes "the segment between" well defined. -/
theorem last_version_record
    (db : CacheState) (r : HResp) (g rest : String)
    (j lastR f0 cd : PyValue) (rs fs : PyList)
    (hurl : r.url = "https://addons.mozilla.org/api/v3/addons/" ++ "addon/"
      ++ g ++ "/versions" ++ rest)
    (hst : r.status = 200)
    (hbody : r.body = some j)
    (hres : pyGetItem j (.str "results") = .ok (.list rs))
    (hg1 : hasSub "addon/".data ((g ++ "/versions" ++ rest).data) = false)
    (hg2 : hasSub "/versions".data g.data = false)
    (hlast : rs.getLast? = some lastR)
    (hfiles : pyGetItem lastR (.str "files") = .ok (.list (.cons f0 fs)))
    (hcd : pyGetItem f0 (.str "created") = .ok cd) :
    handleLastOne db r =
      storeWrite db (pyUnquote g ++ ".json")
        (.dict (.cons (.str "guid") (.str (pyUnquote g))
          (.cons (.str "create_date") cd .nil))) := by
  have hdata : r.url.data =
      "https://addons.mozilla.org/api/v3/addons/".data
        ++ ("addon/".data ++ ((g ++ "/versions" ++ rest).data)) := by
    rw [hurl]
    simp [String.data_append]
  have hb1 : breakAtSub "addon/".data r.url.data =
      some ("https://addons.mozilla.org/api/v3/addons/".data,
        (g ++ "/versions" ++ rest).data) := by
    rw [hdata]
    exact breakAtSub_cleanSplit _ (by decide) _ _ (by decide)
  have hsplit1 : pySplit "addon/".data r.url.data =
      ["https://addons.mozilla.org/api/v3/addons/".data,
        (g ++ "/versions" ++ rest).data] := by
    rw [pySplit_some _ _ _ _ (by decide) hb1,
      pySplit_none _ _ (by decide) (breakAtSub_eq_none _ _ hg1)]
  have hdata2 : (g ++ "/versions" ++ rest).data =
      g.data ++ ("/versions".data ++ rest.data) := by
    simp [String.data_append]
  have hb2 : breakAtSub "/versions".data ((g ++ "/versions" ++ rest).data) =
      some (g.data, rest.data) := by
    rw [hdata2]
    exact breakAtSub_cleanSplit _ (by decide) _ _
      (noStartIn_of_hasSub _ (by decide) _ hg2)
  have hsplit2 : pySplit "/versions".data ((g ++ "/versions" ++ rest).data) =
      g.data :: pySplit "/versions".data rest.data :=
    pySplit_some _ _ _ _ (by decide) hb2
  have hrec : pyGetItem
      (.dict (.cons (.str "guid") (.str (pyUnquote g))
        (.cons (.str "create_date") cd .nil))) (.str "guid")
      = .ok (.str (pyUnquote g)) := by
    simp [pyGetItem, pyGet]
  simp only [handleLastOne, hst, beq_self_eq_true, if_pos, lastVersionPut,
    hbody, hres, hsplit1, hsplit2, List.get?, List.headD, hrec,
    pyGetItem_neg_one rs lastR hlast, hfiles, pyGetItem_zero f0 fs, hcd,
    cachePut, cacheFname, pyStr]

/-- Witness for `last_version_record`: a concrete last-page response for
guid `"abc"` whose single result's first file was created `"2020-01-01"`. -/
theorem last_version_record_witness :
    hasSub "addon/".data (("abc" ++ "/versions" ++ "/?page=3")).data = false ∧
    handleLastOne []
        ⟨"https://addons.mozilla.org/api/v3/addons/" ++ "addon/" ++ "abc"
            ++ "/versions" ++ "/?page=3", 200,
          some (.dict (.cons (.str "results")
            (.list (.cons (.dict (.cons (.str "files")
              (.list (.cons (.dict (.cons (.str "created")
                (.str "2020-01-01") .nil)) .nil)) .nil)) .nil)) .nil))⟩ =
      storeWrite [] (pyUnquote "abc" ++ ".json")
        (.dict (.cons (.str "guid") (.str (pyUnquote "abc"))
          (.cons (.str "create_date") (.str "2020-01-01") .nil))) :=
  ⟨by decide,
    last_version_record [] _ "abc" "/?page=3" _ _
      (.dict (.cons (.str "created") (.str "2020-01-01") .nil))
      (.str "2020-01-01")
      (.cons (.dict (.cons (.str "files")
        (.list (.cons (.dict (.cons (.str "created")
          (.str "2020-01-01") .nil)) .nil)) .nil)) .nil)
      .nil rfl rfl rfl rfl (by decide) (by decide) rfl rfl rfl⟩

/-! ### Claim C5: decimal printing and parsing round trips -/

/-- The function `digitChar` produces the digit character of its argument. -/
theorem digitChar_spec (d : Nat) (h : d < 10) :
    digitVal (digitChar d) = d ∧ isDig (digitChar d) = true := by
  interval_cases d <;> exact ⟨rfl, rfl⟩

/-- With enough fuel, `natToCharsAux` produces the little-endian decimal
digits. -/
theorem natToCharsAux_eq (fuel : Nat) :
    ∀ n, n ≤ fuel → natToCharsAux fuel n = (Nat.digits 10 n).map digitChar := by
  induction fuel with
  | zero =>
      intro n h
      interval_cases n
      rw [Nat.digits_zero]
      rfl
  | succ fuel ih =>
      intro n h
      cases n with
      | zero => rw [Nat.digits_zero]; rfl
      | succ m =>
          rw [show natToCharsAux (fuel + 1) (m + 1)
              = digitChar ((m + 1) % 10) :: natToCharsAux fuel ((m + 1) / 10)
            from rfl]
          rw [Nat.digits_def' (by norm_num : (1:ℕ) < 10)
            (Nat.succ_pos m), List.map_cons]
          congr 1
          refine ih _ ?_
          have := Nat.div_lt_self (Nat.succ_pos m) (by norm_num : 1 < 10)
          omega

/-- Horner evaluation inverts the big-endian digit rendering. -/
theorem natOfChars_digits (L : List Nat) (hL : ∀ d ∈ L, d < 10) :
    natOfChars ((L.map digitChar).reverse) = Nat.ofDigits 10 L := by
  induction L with
  | nil => rfl
  | cons d L ih =>
      have hrev : ((d :: L).map digitChar).reverse
          = (L.map digitChar).reverse ++ [digitChar d] := by
        simp
      rw [hrev]
      have happ : natOfChars ((L.map digitChar).reverse ++ [digitChar d])
          = 10 * natOfChars ((L.map digitChar).reverse)
              + digitVal (digitChar d) := by
        simp [natOfChars, List.foldl_append]
      rw [happ, ih (fun e he => hL e (List.mem_cons_of_mem d he)),
        (digitChar_spec d (hL d (List.mem_cons_self d L))).1,
        Nat.ofDigits_cons]
      ring

/-- The decimal rendering of `n` evaluates back to `n`, consists of
digits, and is nonempty. -/
theorem natToChars_spec (n : Nat) :
    natOfChars (natToChars n) = n ∧ (natToChars n).all isDig = true ∧
      natToChars n ≠ [] := by
  by_cases h : n = 0
  · subst h
    exact ⟨rfl, rfl, by simp [natToChars]⟩
  · rw [natToChars, if_neg h, natToCharsAux_eq n n le_rfl]
    have hlt : ∀ d ∈ Nat.digits 10 n, d < 10 :=
      fun d hd => Nat.digits_lt_base (by norm_num) hd
    refine ⟨?_, ?_, ?_⟩
    · rw [natOfChars_digits _ hlt, Nat.ofDigits_digits]
    · rw [List.all_eq_true]
      intro c hc
      rw [List.mem_reverse, List.mem_map] at hc
      obtain ⟨d, hd, rfl⟩ := hc
      exact (digitChar_spec d (hlt d hd)).2
    · simp only [ne_eq, List.reverse_eq_nil_iff, List.map_eq_nil]
      exact Nat.digits_ne_nil_iff_ne_zero.mpr h

/-- Parsing with `parseNatChars` inverts the decimal rendering. -/
theorem parseNatChars_natToChars (n : Nat) :
    parseNatChars (natToChars n) = some n := by
  obtain ⟨h1, h2, h3⟩ := natToChars_spec n
  rw [parseNatChars, if_pos ⟨h3, h2⟩, h1]

/-- A digit character is not a sign character. -/
theorem isDig_not_sign (c : Char) (h : isDig c = true) :
    ¬ c = '-' ∧ ¬ c = '+' := by
  simp only [isDig, Bool.and_eq_true, decide_eq_true_eq] at h
  constructor <;> intro hc <;> subst hc <;> exact absurd h (by decide)

/-- The character data of `intToStr`. -/
theorem intToStr_data (n : Int) :
    (intToStr n).data =
      (if n < 0 then ['-'] else []) ++ natToChars n.natAbs := by
  by_cases h : n < 0 <;> simp [intToStr, h, String.data_append]

/-- Python `int` inverts the integer rendering (C5: integer dict keys
survive the JSON round trip). -/
theorem pyIntOfStr_intToStr (n : Int) : pyIntOfStr (intToStr n) = some n := by
  obtain ⟨h1, h2, h3⟩ := natToChars_spec n.natAbs
  by_cases h : n < 0
  · have hd : (intToStr n).data = '-' :: natToChars n.natAbs := by
      rw [intToStr_data, if_pos h]; rfl
    rw [pyIntOfStr, hd, pyIntOfChars, if_pos rfl, parseNatChars_natToChars,
      Option.map_some']
    congr 1
    simp only [Int.ofNat_eq_coe]
    omega
  · have hd : (intToStr n).data = natToChars n.natAbs := by
      rw [intToStr_data, if_neg h]; rfl
    rw [pyIntOfStr, hd]
    cases hcs : natToChars n.natAbs with
    | nil => exact absurd hcs h3
    | cons c r =>
        have hdig : isDig c = true := by
          rw [hcs] at h2
          exact (List.all_eq_true.mp h2) c (List.mem_cons_self c r)
        obtain ⟨hm, hp⟩ := isDig_not_sign c hdig
        rw [pyIntOfChars, if_neg hm, if_neg hp, ← hcs,
          parseNatChars_natToChars, Option.map_some']
        congr 1
        simp only [Int.ofNat_eq_coe]
        omega

/-- A denominator dividing some power of ten divides the `d`-th power of
ten for `d` the denominator itself. -/
theorem den_dvd_ten_pow_self (d : Nat) (hd : 0 < d) (h : ∃ E, d ∣ 10 ^ E) :
    d ∣ 10 ^ d := by
  obtain ⟨E, hE⟩ := h
  have h10 : (10 : Nat) ^ E = 2 ^ E * 5 ^ E := by
    rw [show (10 : Nat) = 2 * 5 from rfl, mul_pow]
  rw [h10] at hE
  obtain ⟨y, z, hy, hz, hyz⟩ := Nat.dvd_mul.mp hE
  obtain ⟨a, _, rfl⟩ := (Nat.dvd_prime_pow Nat.prime_two).mp hy
  obtain ⟨b, _, rfl⟩ := (Nat.dvd_prime_pow Nat.prime_five).mp hz
  have ha : a < d := by
    have h2d : 2 ^ a ∣ d := Dvd.intro _ hyz
    have := Nat.le_of_dvd hd h2d
    have := Nat.lt_two_pow a
    omega
  have hb : b < d := by
    have h5d : 5 ^ b ∣ d := ⟨2 ^ a, by rw [← hyz]; ring⟩
    have := Nat.le_of_dvd hd h5d
    have : b < 5 ^ b := Nat.lt_pow_self (by norm_num) b
    omega
  have h10d : (10 : Nat) ^ d = 2 ^ d * 5 ^ d := by
    rw [show (10 : Nat) = 2 * 5 from rfl, mul_pow]
  rw [h10d]
  conv_lhs => rw [← hyz]
  exact mul_dvd_mul (pow_dvd_pow 2 (le_of_lt ha)) (pow_dvd_pow 5 (le_of_lt hb))

/-- Every parsed decimal has a denominator dividing a power of ten. -/
theorem parseDecCharsAux_den (ip : List Char) (rest : List Char) (q : Rat)
    (h : parseDecCharsAux ip rest = some q) : ∃ E, (q.den : Nat) ∣ 10 ^ E := by
  cases rest with
  | nil =>
      rw [parseDecCharsAux] at h
      split at h
      · exact Option.noConfusion h
      · have hq : q = ((natOfChars ip : Nat) : Rat) := by
          simpa using h.symm
        exact ⟨0, by rw [hq, Rat.den_natCast]; exact one_dvd _⟩
  | cons c fp =>
      rw [parseDecCharsAux] at h
      split at h
      · have hq : q = ((natOfChars (ip ++ fp) : Nat) : Rat)
            / (10 : Rat) ^ fp.length := by
          simpa using h.symm
        refine ⟨fp.length, ?_⟩
        have hdiv : q = ((natOfChars (ip ++ fp) : Int) : Rat)
            / (((10 : Int) ^ fp.length : Int) : Rat) := by
          rw [hq]; push_cast; ring_nf
        have hdd := Rat.den_dvd (natOfChars (ip ++ fp) : Int)
          ((10 : Int) ^ fp.length)
        rw [Rat.divInt_eq_div, ← hdiv] at hdd
        have h2 : (q.den : Int) ∣ (10 : Int) ^ fp.length := hdd
        have h3 : (q.den : Int) ∣ ((10 ^ fp.length : Nat) : Int) := by
          push_cast
          exact h2
        exact_mod_cast h3
      · exact Option.noConfusion h

theorem parseDecChars_den (cs : List Char) (q : Rat)
    (h : parseDecChars cs = some q) : ∃ E, (q.den : Nat) ∣ 10 ^ E :=
  parseDecCharsAux_den _ _ q h

/-- Lowercasing fixes a decimal digit character. -/
theorem lowChar_digit (c : Char) (h : isDig c = true) : lowChar c = c := by
  rw [isDig, Bool.and_eq_true, decide_eq_true_eq, decide_eq_true_eq] at h
  rw [lowChar, if_neg]
  intro hc
  omega

/-- On a digit-headed string, `float` never matches a special name and
falls through to the decimal parser. -/
theorem pyFloatMag_digit (c : Char) (r : List Char) (hd : isDig c = true) :
    pyFloatMag (c :: r) = (parseDecChars (c :: r)).map PFloat.finite := by
  have hlc : lowChar c = c := lowChar_digit c hd
  have hcons : lowerChars (c :: r) = c :: lowerChars r := by
    rw [lowerChars, hlc]
  have hn : c ≠ 'n' := by
    intro hc
    rw [hc] at hd
    exact absurd hd (by decide)
  have hi : c ≠ 'i' := by
    intro hc
    rw [hc] at hd
    exact absurd hd (by decide)
  rw [pyFloatMag, hcons, if_neg, if_neg]
  · intro hcase
    rcases hcase with hcase | hcase <;>
      exact hi (List.cons.inj hcase).1
  · intro hcase
    exact hn (List.cons.inj hcase).1

/-- A finite float out of the unsigned parser comes from the decimal
parser, so its denominator divides a power of ten. -/
theorem pyFloatMag_den (cs : List Char) (q : Rat)
    (h : pyFloatMag cs = some (.finite q)) : ∃ E, (q.den : Nat) ∣ 10 ^ E := by
  rw [pyFloatMag] at h
  split at h
  · exact absurd (Option.some.inj h) (fun hc => PFloat.noConfusion hc)
  · split at h
    · exact absurd (Option.some.inj h) (fun hc => PFloat.noConfusion hc)
    · rcases hp : parseDecChars cs with _ | q'
      · rw [hp] at h
        exact Option.noConfusion h
      · rw [hp, Option.map_some'] at h
        have hq : q' = q := by
          have hfin : PFloat.finite q' = PFloat.finite q := Option.some.inj h
          injection hfin
        exact hq ▸ parseDecChars_den cs q' hp

/-- Signs transfer `pyFloatMag_den` to the full float parser. -/
theorem pyFloatOfStr_den (s : String) (q : Rat)
    (h : pyFloatOfStr s = some (.finite q)) : ∃ E, (q.den : Nat) ∣ 10 ^ E := by
  rw [pyFloatOfStr] at h
  cases hcs : s.data with
  | nil => rw [hcs, pyFloatOfChars] at h; exact Option.noConfusion h
  | cons c r =>
      rw [hcs, pyFloatOfChars] at h
      split at h
      · rcases hm : pyFloatMag r with _ | f
        · rw [hm] at h; exact Option.noConfusion h
        · rw [hm, Option.map_some'] at h
          have hpf : pfNeg f = .finite q := Option.some.inj h
          cases f with
          | finite q' =>
              have hq : -q' = q := by
                have hfin : PFloat.finite (-q') = PFloat.finite q := hpf
                injection hfin
              obtain ⟨E, hE⟩ := pyFloatMag_den r q' hm
              exact ⟨E, by rw [← hq, Rat.den_neg_eq_den]; exact hE⟩
          | nan => exact PFloat.noConfusion hpf
          | inf => exact PFloat.noConfusion hpf
          | ninf => exact PFloat.noConfusion hpf
      · split at h
        · exact pyFloatMag_den r q h
        · exact pyFloatMag_den (c :: r) q h

/-- The `takeWhile`/`dropWhile` pair splits an all-satisfying block at the first
failing element. -/
theorem takeWhile_dropWhile_append (p : Char → Bool) :
    ∀ (a : List Char) (c0 : Char) (b : List Char),
      (∀ c ∈ a, p c = true) → p c0 = false →
      (a ++ c0 :: b).takeWhile p = a ∧ (a ++ c0 :: b).dropWhile p = c0 :: b := by
  intro a
  induction a with
  | nil =>
      intro c0 b _ hc
      simp [List.takeWhile_cons, List.dropWhile_cons, hc]
  | cons x a' ih =>
      intro c0 b ha hc
      have hx : p x = true := ha x (List.mem_cons_self x a')
      have := ih c0 b (fun c hcm => ha c (List.mem_cons_of_mem x hcm)) hc
      simp [List.takeWhile_cons, List.dropWhile_cons, hx, this.1, this.2]

/-- Leading zeros do not change the Horner value. -/
theorem natOfChars_replicate_zero (k : Nat) (cs : List Char) :
    natOfChars (List.replicate k '0' ++ cs) = natOfChars cs := by
  induction k with
  | zero => rfl
  | succ k ih =>
      rw [List.replicate_succ, List.cons_append]
      show natOfChars (List.replicate k '0' ++ cs) = _
      exact ih

/-- Python `float` inverts the finite float rendering when the
denominator divides a power of ten (C5: float dict keys survive the JSON
round trip). -/
theorem pyFloatOfStr_floatToStr (q : Rat) (h : ∃ E, (q.den : Nat) ∣ 10 ^ E) :
    pyFloatOfStr (floatToStr q) = some (.finite q) := by
  have hd0 : 0 < q.den := q.den_pos
  have hdd : q.den ∣ 10 ^ q.den := den_dvd_ten_pow_self q.den hd0 h
  set d := q.den with hdset
  set m := q.num.natAbs * (10 ^ d / d) with hmset
  set digs := natToChars m with hdigsset
  obtain ⟨hm1, hm2, hm3⟩ := natToChars_spec m
  set padded := List.replicate (d + 1 - digs.length) '0' ++ digs with hpad
  have hplen : d + 1 ≤ padded.length ∧ digs.length ≤ padded.length := by
    constructor <;> simp [hpad, List.length_append, List.length_replicate] <;>
      omega
  have hpall : ∀ c ∈ padded, isDig c = true := by
    intro c hc
    rcases List.mem_append.mp hc with hrep | hdig
    · rw [List.eq_of_mem_replicate hrep]; rfl
    · exact (List.all_eq_true.mp hm2) c hdig
  have hpval : natOfChars padded = m := by
    rw [hpad, natOfChars_replicate_zero, hdigsset]
    exact hm1
  set ip := padded.take (padded.length - d) with hip
  set fp := padded.drop (padded.length - d) with hfp
  have hipfp : ip ++ fp = padded := List.take_append_drop _ _
  have hfplen : fp.length = d := by
    rw [hfp, List.length_drop]
    omega
  have hiplen : 1 ≤ ip.length := by
    rw [hip, List.length_take]
    omega
  have hipne : ip ≠ [] := by
    intro hnil
    rw [hnil] at hiplen
    simp at hiplen
  have hipall : ∀ c ∈ ip, isDig c = true := fun c hc =>
    hpall c (hipfp ▸ List.mem_append.mpr (Or.inl hc))
  have hfpall : ∀ c ∈ fp, isDig c = true := fun c hc =>
    hpall c (hipfp ▸ List.mem_append.mpr (Or.inr hc))
  have hdotdig : isDig '.' = false := rfl
  obtain ⟨htw, hdw⟩ := takeWhile_dropWhile_append isDig ip '.' fp hipall hdotdig
  have hparse : parseDecChars (ip ++ '.' :: fp)
      = some (((natOfChars (ip ++ fp) : Nat) : Rat) / (10 : Rat) ^ fp.length) := by
    rw [parseDecChars, htw, hdw, parseDecCharsAux,
      if_pos ⟨rfl, List.all_eq_true.mpr hfpall, Or.inl hipne⟩]
  have hval : ((natOfChars (ip ++ fp) : Nat) : Rat) / (10 : Rat) ^ fp.length
      = (q.num.natAbs : Rat) / (q.den : Rat) := by
    rw [hipfp, hpval, hfplen, hmset]
    have hdq : ((d : Nat) : Rat) ≠ 0 := by
      rw [Nat.cast_ne_zero]
      omega
    have h10 : ((10 : Rat)) ^ d ≠ 0 := by positivity
    rw [Nat.cast_mul, Nat.cast_div hdd hdq]
    rw [hdset]
    push_cast
    field_simp
    ring
  have hstrdata : (floatToStr q).data
      = (if q.num < 0 then ['-'] else []) ++ (ip ++ '.' :: fp) := by
    rw [floatToStr]
    by_cases hneg : q.num < 0 <;>
      simp [hneg, String.data_append, ← hdset, ← hmset, ← hdigsset, ← hpad,
        ← hip, ← hfp]
  obtain ⟨c0, ip', hipcons⟩ := List.exists_cons_of_ne_nil hipne
  have hc0dig : isDig c0 = true := hipall c0 (hipcons ▸ List.mem_cons_self _ _)
  by_cases hneg : q.num < 0
  · have hdata : (floatToStr q).data = '-' :: (ip ++ '.' :: fp) := by
      rw [hstrdata, if_pos hneg]; rfl
    rw [pyFloatOfStr, hdata, pyFloatOfChars, if_pos rfl, hipcons,
      List.cons_append, pyFloatMag_digit c0 _ hc0dig, ← List.cons_append,
      ← hipcons, hparse, Option.map_some', Option.map_some']
    simp only [pfNeg, Option.some.injEq, PFloat.finite.injEq]
    rw [hval]
    have habs : (q.num.natAbs : Int) = -q.num :=
      Int.ofNat_natAbs_of_nonpos (le_of_lt hneg)
    have hcast : (q.num.natAbs : Rat) = -(q.num : Rat) := by
      calc (q.num.natAbs : Rat) = ((q.num.natAbs : Int) : Rat) :=
            (Int.cast_natCast _).symm
        _ = ((-q.num : Int) : Rat) := by rw [habs]
        _ = -(q.num : Rat) := by push_cast; ring
    rw [hcast, neg_div, neg_neg, Rat.num_div_den]
  · have hdata : (floatToStr q).data = ip ++ '.' :: fp := by
      rw [hstrdata, if_neg hneg]; rfl
    obtain ⟨hm', hp'⟩ := isDig_not_sign c0 hc0dig
    rw [pyFloatOfStr, hdata, hipcons, List.cons_append, pyFloatOfChars,
      if_neg hm', if_neg hp', pyFloatMag_digit c0 _ hc0dig,
      ← List.cons_append, ← hipcons, hparse, Option.map_some']
    simp only [Option.some.injEq, PFloat.finite.injEq]
    rw [hval]
    have habs : (q.num.natAbs : Int) = q.num :=
      Int.natAbs_of_nonneg (not_lt.mp hneg)
    have hcast : (q.num.natAbs : Rat) = (q.num : Rat) := by
      calc (q.num.natAbs : Rat) = ((q.num.natAbs : Int) : Rat) :=
            (Int.cast_natCast _).symm
        _ = (q.num : Rat) := by rw [habs]
    rw [hcast, Rat.num_div_den]

/-! ### Claim C5: dict plumbing -/

/-- Concatenation of dict entry lists. -/
def PyPairs.append : PyPairs → PyPairs → PyPairs
  | .nil, b => b
  | .cons k v rest, b => .cons k v (rest.append b)

/-- Pairwise-distinct keys. -/
def keysDistinctB : PyPairs → Bool
  | .nil => true
  | .cons k _ rest => (pyGet rest k).isNone && keysDistinctB rest

/-- Every key satisfies `pk` and every value satisfies `pv`. -/
def pairsAll (pk pv : PyValue → Prop) : PyPairs → Prop
  | .nil => True
  | .cons k v rest => pk k ∧ pv v ∧ pairsAll pk pv rest

/-- Appending `nil` on the right. -/
theorem PyPairs.append_nil : ∀ a : PyPairs, a.append .nil = a := by
  intro a
  induction a using PyPairs.myrec with
  | nil => rfl
  | cons k v rest ih => rw [PyPairs.append, ih]

/-- Lookup across an append. -/
theorem pyGet_append (a b : PyPairs) (k : PyValue) :
    pyGet (a.append b) k =
      match pyGet a k with
      | some v => some v
      | none => pyGet b k := by
  induction a using PyPairs.myrec with
  | nil => rfl
  | cons k' v rest ih =>
      by_cases h : k' = k
      · simp [PyPairs.append, pyGet, h]
      · simp [PyPairs.append, pyGet, h, ih]

/-- Inserting a fresh key appends it at the end. -/
theorem dictInsert_fresh (a : PyPairs) (k v : PyValue)
    (h : pyGet a k = none) :
    dictInsert a k v = a.append (.cons k v .nil) := by
  induction a using PyPairs.myrec with
  | nil => rfl
  | cons k' v' rest ih =>
      rw [pyGet] at h
      by_cases hk : k' = k
      · rw [if_pos hk] at h
        exact Option.noConfusion h
      · rw [if_neg hk] at h
        rw [dictInsert, if_neg hk, PyPairs.append, ih h]

/-- Insertion preserves key distinctness. -/
theorem keysDistinct_dictInsert (ps : PyPairs) (k v : PyValue)
    (h : keysDistinctB ps = true) : keysDistinctB (dictInsert ps k v) = true := by
  induction ps using PyPairs.myrec with
  | nil => rfl
  | cons k' v' rest ih =>
      rw [keysDistinctB, Bool.and_eq_true] at h
      by_cases hk : k' = k
      · rw [dictInsert, if_pos hk, keysDistinctB, Bool.and_eq_true]
        exact ⟨h.1, h.2⟩
      · rw [dictInsert, if_neg hk, keysDistinctB, Bool.and_eq_true,
          pyGet_dictInsert]
        refine ⟨?_, ih h.2⟩
        rw [if_neg (fun hh : k' = k => hk hh)]
        exact h.1

/-- Insertion preserves a `pairsAll` invariant. -/
theorem pairsAll_dictInsert {pk pv : PyValue → Prop} (ps : PyPairs)
    (k v : PyValue) (h : pairsAll pk pv ps) (hk : pk k) (hv : pv v) :
    pairsAll pk pv (dictInsert ps k v) := by
  induction ps using PyPairs.myrec with
  | nil => exact ⟨hk, hv, trivial⟩
  | cons k' v' rest ih =>
      obtain ⟨h1, h2, h3⟩ := h
      by_cases hkk : k' = k
      · rw [dictInsert, if_pos hkk]
        exact ⟨h1, hv, h3⟩
      · rw [dictInsert, if_neg hkk]
        exact ⟨h1, h2, ih h3⟩

/-- The predicate `pairsAll` is monotone. -/
theorem pairsAll_mono {pk pv pk' pv' : PyValue → Prop}
    (hk : ∀ x, pk x → pk' x) (hv : ∀ x, pv x → pv' x) :
    ∀ ps, pairsAll pk pv ps → pairsAll pk' pv' ps := by
  intro ps
  induction ps using PyPairs.myrec with
  | nil => intro _; trivial
  | cons k v rest ih =>
      intro ⟨h1, h2, h3⟩
      exact ⟨hk k h1, hv v h2, ih h3⟩

/-- Two `pairsAll` invariants combine. -/
theorem pairsAll_and {pk pv pk' pv' : PyValue → Prop} :
    ∀ ps, pairsAll pk pv ps → pairsAll pk' pv' ps →
      pairsAll (fun x => pk x ∧ pk' x) (fun x => pv x ∧ pv' x) ps := by
  intro ps
  induction ps using PyPairs.myrec with
  | nil => intro _ _; trivial
  | cons k v rest ih =>
      intro ⟨a1, a2, a3⟩ ⟨b1, b2, b3⟩
      exact ⟨⟨a1, b1⟩, ⟨a2, b2⟩, ih a3 b3⟩

/-- Appending dict entry lists is associative. -/
theorem PyPairs.append_assoc : ∀ a b c : PyPairs,
    (a.append b).append c = a.append (b.append c) := by
  intro a b c
  induction a using PyPairs.myrec with
  | nil => rfl
  | cons k v rest ih => rw [PyPairs.append, PyPairs.append, PyPairs.append, ih]

/-- An absent key differs from every key in the list. -/
theorem pairsAll_ne_of_get_none (k : PyValue) :
    ∀ ps, pyGet ps k = none →
      pairsAll (fun k' => k' ≠ k) (fun _ => True) ps := by
  intro ps
  induction ps using PyPairs.myrec with
  | nil => intro _; trivial
  | cons k' v rest ih =>
      intro h
      rw [pyGet] at h
      by_cases hk : k' = k
      · rw [if_pos hk] at h; exact Option.noConfusion h
      · rw [if_neg hk] at h
        exact ⟨hk, trivial, ih h⟩

/-- Python `dict(...)` succeeds only on hashable keys. -/
theorem pyDictOfPairsAux_hashable :
    ∀ (ps acc d : PyPairs), pyDictOfPairsAux acc ps = some d →
      pairsAll (fun k => hashable k = true) (fun _ => True) ps := by
  intro ps
  induction ps using PyPairs.myrec with
  | nil => intro acc d _; trivial
  | cons k v rest ih =>
      intro acc d h
      rw [pyDictOfPairsAux] at h
      by_cases hk : hashable k = true
      · rw [if_pos hk] at h
        exact ⟨hk, trivial, ih _ _ h⟩
      · rw [if_neg hk] at h
        exact Option.noConfusion h

/-- Python `dict(...)` carries key distinctness and `pairsAll` invariants to its
output. -/
theorem pyDictOfPairsAux_spec {pk pv : PyValue → Prop} :
    ∀ (ps acc d : PyPairs), pyDictOfPairsAux acc ps = some d →
      keysDistinctB acc = true → pairsAll pk pv acc → pairsAll pk pv ps →
      keysDistinctB d = true ∧ pairsAll pk pv d := by
  intro ps
  induction ps using PyPairs.myrec with
  | nil =>
      intro acc d h hdist hacc _
      rw [pyDictOfPairsAux] at h
      have : acc = d := by simpa using h
      subst this
      exact ⟨hdist, hacc⟩
  | cons k v rest ih =>
      intro acc d h hdist hacc hall
      obtain ⟨h1, h2, h3⟩ := hall
      rw [pyDictOfPairsAux] at h
      by_cases hk : hashable k = true
      · rw [if_pos hk] at h
        exact ih _ _ h (keysDistinct_dictInsert acc k v hdist)
          (pairsAll_dictInsert acc k v hacc h1 h2) h3
      · rw [if_neg hk] at h
        exact Option.noConfusion h

/-- On distinct hashable keys that are fresh for the accumulator,
`dict(...)` is the identity (it appends in order). -/
theorem pyDictOfPairsAux_id :
    ∀ (ps acc : PyPairs), keysDistinctB ps = true →
      pairsAll (fun k => hashable k = true ∧ pyGet acc k = none)
        (fun _ => True) ps →
      pyDictOfPairsAux acc ps = some (acc.append ps) := by
  intro ps
  induction ps using PyPairs.myrec with
  | nil => intro acc _ _; rw [pyDictOfPairsAux, PyPairs.append_nil]
  | cons k v rest ih =>
      intro acc hdist hall
      obtain ⟨⟨hk, hfresh⟩, _, h3⟩ := hall
      rw [keysDistinctB, Bool.and_eq_true] at hdist
      rw [pyDictOfPairsAux, if_pos hk, dictInsert_fresh acc k v hfresh]
      have hne := pairsAll_ne_of_get_none k rest
        (by
          cases hg : pyGet rest k with
          | none => rfl
          | some w => rw [hg] at hdist; simp at hdist)
      have hstep : pairsAll
          (fun k' => hashable k' = true ∧
            pyGet (acc.append (.cons k v .nil)) k' = none)
          (fun _ => True) rest :=
        pairsAll_mono
          (fun x hx => by
            obtain ⟨⟨hh, hfr⟩, hne'⟩ := hx
            refine ⟨hh, ?_⟩
            rw [pyGet_append, hfr, pyGet,
              if_neg (fun hkx : k = x => hne' hkx.symm)]
            rfl)
          (fun _ _ => trivial) rest (pairsAll_and rest h3 hne)
      have happ : (acc.append (.cons k v .nil)).append rest
          = acc.append (.cons k v rest) := by
        rw [PyPairs.append_assoc]
        rfl
      rw [ih _ hdist.2 hstep, happ]

/-- Python `dict(...)` on a distinct hashable pair list returns it unchanged. -/
theorem pyDictOfPairs_id (ps : PyPairs) (hdist : keysDistinctB ps = true)
    (hhash : pairsAll (fun k => hashable k = true) (fun _ => True) ps) :
    pyDictOfPairs ps = some ps := by
  rw [pyDictOfPairs, pyDictOfPairsAux_id ps .nil hdist
    (pairsAll_mono (fun x hx => ⟨hx, rfl⟩) (fun _ _ => trivial) ps hhash)]
  rfl

/-! ### Claim C5: JSON-document facts and schema field lookup -/

/-- Values of a JSON-document dict are JSON documents. -/
theorem jsonDoc_get : ∀ (kvs : PyPairs) (k v : PyValue),
    jsonDocPairsB kvs = true → pyGet kvs k = some v → jsonDocB v = true := by
  intro kvs
  induction kvs using PyPairs.myrec with
  | nil => intro k v _ hg; exact Option.noConfusion hg
  | cons k' v' rest ih =>
      intro k v h hg
      rw [jsonDocPairsB, Bool.and_eq_true, Bool.and_eq_true] at h
      rw [pyGet] at hg
      by_cases hk : k' = k
      · rw [if_pos hk] at hg
        have : v' = v := by simpa using hg
        subst this
        exact h.1.2
      · rw [if_neg hk] at hg
        exact ih k v h.2 hg

/-- Keys of a JSON-document dict are strings, values are documents. -/
theorem jsonDoc_keys_str : ∀ kvs : PyPairs, jsonDocPairsB kvs = true →
    pairsAll (fun k => ∃ s, k = .str s) (fun v => jsonDocB v = true) kvs := by
  intro kvs
  induction kvs using PyPairs.myrec with
  | nil => intro _; trivial
  | cons k v rest ih =>
      intro h
      rw [jsonDocPairsB, Bool.and_eq_true, Bool.and_eq_true] at h
      refine ⟨?_, h.1.2, ih h.2⟩
      cases k <;> simp [isStrB] at h ⊢

/-- One-character strings are JSON documents. -/
theorem jsonDocList_chars : ∀ cs : List Char,
    jsonDocListB (charsToPyList cs) = true := by
  intro cs
  induction cs with
  | nil => rfl
  | cons c rest ih =>
      rw [charsToPyList, jsonDocListB, Bool.and_eq_true]
      exact ⟨rfl, ih⟩

/-- Keys of a JSON-document dict form a JSON-document list. -/
theorem jsonDocList_keys : ∀ kvs : PyPairs, jsonDocPairsB kvs = true →
    jsonDocListB kvs.keys = true := by
  intro kvs
  induction kvs using PyPairs.myrec with
  | nil => intro _; rfl
  | cons k v rest ih =>
      intro h
      rw [jsonDocPairsB, Bool.and_eq_true, Bool.and_eq_true] at h
      rw [PyPairs.keys, jsonDocListB, Bool.and_eq_true]
      refine ⟨?_, ih h.2⟩
      cases k with
      | str s => rfl
      | null => exact Bool.noConfusion h.1.1
      | bool b => exact Bool.noConfusion h.1.1
      | int n => exact Bool.noConfusion h.1.1
      | float q => exact Bool.noConfusion h.1.1
      | list xs => exact Bool.noConfusion h.1.1
      | dict kvs => exact Bool.noConfusion h.1.1

/-- Iterating a JSON document yields JSON documents. -/
theorem jsonDoc_iter (v : PyValue) (elems : PyList)
    (h : jsonDocB v = true) (hi : pyIter v = some elems) :
    jsonDocListB elems = true := by
  cases v with
  | list xs =>
      have : xs = elems := by simpa [pyIter] using hi
      subst this
      exact h
  | str s =>
      have : charsToPyList s.data = elems := by simpa [pyIter] using hi
      subst this
      exact jsonDocList_chars s.data
  | dict kvs =>
      have : kvs.keys = elems := by simpa [pyIter] using hi
      subst this
      exact jsonDocList_keys kvs h
  | null => exact Option.noConfusion hi
  | bool b => exact Option.noConfusion hi
  | int n => exact Option.noConfusion hi
  | float q => exact Option.noConfusion hi

/-- Lookup of a declared field's type descriptor (first match). -/
def schemaFind : Schema → String → Option TypeDef
  | .nil, _ => none
  | .cons name t rest, n => if name = n then some t else schemaFind rest n

/-- Undeclared names are not found. -/
theorem schemaFind_none : ∀ (s : Schema) (n : String), n ∉ namesOf s →
    schemaFind s n = none := by
  intro s
  induction s using Schema.myrec with
  | nil => intro n _; rfl
  | cons name t rest ih =>
      intro n hn
      rw [namesOf, List.mem_cons] at hn
      push_neg at hn
      rw [schemaFind, if_neg (fun h => hn.1 h.symm)]
      exact ih n hn.2

/-- What the field loop stores under each name: for a declared name the
coercion of the input's field, otherwise the accumulator's binding
(requires distinct declared names, as in the source's `meta` dicts). -/
theorem marshalFields_get : ∀ (s : Schema) (kvs acc obj : PyPairs),
    nodupS s = true → marshalFields s kvs acc = some obj →
    ∀ n : String,
      pyGet obj (.str n) =
        match schemaFind s n with
        | some t =>
            match pyGet kvs (.str n) with
            | some v => fix_types t v
            | none => pyGet acc (.str n)
        | none => pyGet acc (.str n) := by
  intro s
  induction s using Schema.myrec with
  | nil =>
      intro kvs acc obj _ hrun n
      rw [marshalFields] at hrun
      have : acc = obj := by simpa using hrun
      subst this
      rfl
  | cons name0 t0 rest ih =>
      intro kvs acc obj hnd hrun n
      rw [nodupS, Bool.and_eq_true, Bool.and_eq_true] at hnd
      obtain ⟨⟨hnc, _⟩, hndrest⟩ := hnd
      have hname0 : name0 ∉ namesOf rest := by simpa using hnc
      rw [marshalFields] at hrun
      cases hv : pyGet kvs (.str name0) with
      | none =>
          simp only [hv] at hrun
          have hih := ih kvs acc obj hndrest hrun n
          by_cases hn : name0 = n
          · subst hn
            have hsf : schemaFind (Schema.cons name0 t0 rest) name0
                = some t0 := by rw [schemaFind, if_pos rfl]
            simp only [hsf, hv, hih, schemaFind_none rest name0 hname0]
          · have hsf : schemaFind (Schema.cons name0 t0 rest) n
                = schemaFind rest n := by rw [schemaFind, if_neg hn]
            simp only [hsf]
            exact hih
      | some v =>
          simp only [hv] at hrun
          cases hf : fix_types t0 v with
          | none =>
              simp only [hf] at hrun
              exact Option.noConfusion hrun
          | some w =>
              simp only [hf] at hrun
              have hih := ih kvs (dictInsert acc (.str name0) w) obj
                hndrest hrun n
              by_cases hn : name0 = n
              · subst hn
                have hsf : schemaFind (Schema.cons name0 t0 rest) name0
                    = some t0 := by rw [schemaFind, if_pos rfl]
                simp only [hsf, hv, hf, hih,
                  schemaFind_none rest name0 hname0, pyGet_dictInsert,
                  if_pos rfl]
                simp
              · have hne : ¬ (PyValue.str n = PyValue.str name0) := by
                  intro h
                  injection h with h'
                  exact hn h'.symm
                have hacc : pyGet (dictInsert acc (.str name0) w) (.str n)
                    = pyGet acc (.str n) := by
                  rw [pyGet_dictInsert, if_neg hne]
                have hsf : schemaFind (Schema.cons name0 t0 rest) n
                    = schemaFind rest n := by rw [schemaFind, if_neg hn]
                simp only [hsf, hih, hacc]

/-! ### Claim C5: rendering lemmas -/

/-- Rendering distributes over appended pair lists. -/
theorem jsonRenderPairs_append : ∀ (a b a' b' : PyPairs),
    jsonRenderPairs a = some a' → jsonRenderPairs b = some b' →
    jsonRenderPairs (a.append b) = some (a'.append b') := by
  intro a
  induction a using PyPairs.myrec with
  | nil =>
      intro b a' b' ha hb
      have h0 : a' = .nil := by
        simpa [jsonRenderPairs] using ha.symm
      subst h0
      rw [PyPairs.append]
      exact hb
  | cons k v rest ih =>
      intro b a' b' ha hb
      simp only [jsonRenderPairs, Option.pure_def, Option.bind_eq_bind,
        Option.bind_eq_some, Option.some.injEq] at ha
      obtain ⟨ks, hks, v', hv', rest', hrest', hpure⟩ := ha
      rw [PyPairs.append]
      simp only [jsonRenderPairs, Option.pure_def, Option.bind_eq_bind,
        Option.bind_eq_some, Option.some.injEq, hks, hv',
        ih b rest' b' hrest' hb]
      exact ⟨ks, rfl, v', rfl, rest'.append b', rfl, by rw [← hpure]; rfl⟩

/-- Rendering a string-keyed pair list keeps the keys and renders the
values, lookup-wise. -/
theorem jsonRenderPairs_get : ∀ (ps psR : PyPairs),
    jsonRenderPairs ps = some psR →
    pairsAll (fun k => ∃ s, k = .str s) (fun _ => True) ps →
    ∀ s' : String,
      pyGet psR (.str s') = (pyGet ps (.str s')).bind jsonRender := by
  intro ps
  induction ps using PyPairs.myrec with
  | nil =>
      intro psR h _ s'
      have h0 : psR = .nil := by simpa [jsonRenderPairs] using h.symm
      subst h0
      rfl
  | cons k v rest ih =>
      intro psR h hstr s'
      obtain ⟨⟨sk, rfl⟩, _, hstr'⟩ := hstr
      simp only [jsonRenderPairs, Option.pure_def, Option.bind_eq_bind,
        Option.bind_eq_some, Option.some.injEq] at h
      obtain ⟨ks, hks, v', hv', rest', hrest', hpure⟩ := h
      have hksk := Option.some.inj hks
      subst hksk
      subst hpure
      by_cases he : (PyValue.str sk) = (PyValue.str s')
      · rw [pyGet, if_pos he, pyGet, if_pos he, Option.bind, hv']
      · rw [pyGet, if_neg he, pyGet, if_neg he, ih rest' hrest' hstr' s']

/-- Rendering preserves key distinctness of a string-keyed pair list. -/
theorem jsonRenderPairs_distinct : ∀ (ps psR : PyPairs),
    jsonRenderPairs ps = some psR →
    pairsAll (fun k => ∃ s, k = .str s) (fun _ => True) ps →
    keysDistinctB ps = true → keysDistinctB psR = true := by
  intro ps
  induction ps using PyPairs.myrec with
  | nil =>
      intro psR h _ _
      have h0 : psR = .nil := by simpa [jsonRenderPairs] using h.symm
      subst h0
      rfl
  | cons k v rest ih =>
      intro psR h hstr hdist
      obtain ⟨⟨sk, rfl⟩, _, hstr'⟩ := hstr
      rw [keysDistinctB, Bool.and_eq_true] at hdist
      simp only [jsonRenderPairs, Option.pure_def, Option.bind_eq_bind,
        Option.bind_eq_some, Option.some.injEq] at h
      obtain ⟨ks, hks, v', hv', rest', hrest', hpure⟩ := h
      have hksk := Option.some.inj hks
      subst hksk
      subst hpure
      rw [keysDistinctB, Bool.and_eq_true]
      refine ⟨?_, ih rest' hrest' hstr' hdist.2⟩
      rw [jsonRenderPairs_get rest rest' hrest' hstr' sk]
      cases hg : pyGet rest (.str sk) with
      | none => rfl
      | some w => rw [hg] at hdist; simp at hdist

/-- Rendered pair lists have hashable string keys. -/
theorem jsonRenderPairs_keys : ∀ (ps psR : PyPairs),
    jsonRenderPairs ps = some psR →
    pairsAll (fun k => hashable k = true ∧ ∃ s, k = .str s)
      (fun _ => True) psR := by
  intro ps
  induction ps using PyPairs.myrec with
  | nil =>
      intro psR h
      have h0 : psR = .nil := by simpa [jsonRenderPairs] using h.symm
      subst h0
      trivial
  | cons k v rest ih =>
      intro psR h
      simp only [jsonRenderPairs, Option.pure_def, Option.bind_eq_bind,
        Option.bind_eq_some, Option.some.injEq] at h
      obtain ⟨ks, _, v', _, rest', hrest', hpure⟩ := h
      subst hpure
      exact ⟨⟨rfl, ks, rfl⟩, trivial, ih rest' hrest'⟩

/-- A successful `sequence-of` coercion returns a list. -/
theorem fix_tlist_shape (t : TypeDef) (v w : PyValue)
    (h : fix_types (.tlist t) v = some w) : ∃ ws, w = .list ws := by
  simp only [fix_types, Option.pure_def, Option.bind_eq_bind,
    Option.bind_eq_some, Option.some.injEq] at h
  obtain ⟨elems, _, ws, _, hpure⟩ := h
  exact ⟨ws, hpure.symm⟩

/-- Key round trip: a successful, hashable key coercion of a string under
a non-boolean key kind renders to a string that re-coerces to the same
key. -/
theorem key_roundtrip (tk : TypeDef) (hnb : tk ≠ .tbool) (sk : String)
    (kc : PyValue) (hk : fix_types tk (.str sk) = some kc)
    (hhash : hashable kc = true) :
    ∃ ks, keyToStr kc = some ks ∧ fix_types tk (.str ks) = some kc := by
  cases tk with
  | tstr =>
      have h0 := Option.some.inj hk
      subst h0
      exact ⟨sk, rfl, rfl⟩
  | tint =>
      rcases hp : pyIntOfStr sk with _ | n
      · have hfix : fix_types .tint (.str sk) = none := by
          show (pyIntOfStr sk).map PyValue.int = none
          rw [hp]; rfl
        rw [hfix] at hk
        exact Option.noConfusion hk
      · have hfix : fix_types .tint (.str sk) = some (.int n) := by
          show (pyIntOfStr sk).map PyValue.int = some (.int n)
          rw [hp]; rfl
        rw [hfix] at hk
        have h0 := Option.some.inj hk
        subst h0
        refine ⟨intToStr n, rfl, ?_⟩
        show (pyIntOfStr (intToStr n)).map PyValue.int = some (.int n)
        rw [pyIntOfStr_intToStr]
        rfl
  | tfloat =>
      rcases hp : pyFloatOfStr sk with _ | f
      · have hfix : fix_types .tfloat (.str sk) = none := by
          show (pyFloatOfStr sk).map PyValue.float = none
          rw [hp]; rfl
        rw [hfix] at hk
        exact Option.noConfusion hk
      · have hfix : fix_types .tfloat (.str sk) = some (.float f) := by
          show (pyFloatOfStr sk).map PyValue.float = some (.float f)
          rw [hp]; rfl
        rw [hfix] at hk
        have h0 := Option.some.inj hk
        subst h0
        refine ⟨pfloatToJson f, rfl, ?_⟩
        show (pyFloatOfStr (pfloatToJson f)).map PyValue.float
          = some (.float f)
        cases f with
        | finite q =>
            rw [show pfloatToJson (.finite q) = floatToStr q from rfl,
              pyFloatOfStr_floatToStr q (pyFloatOfStr_den sk q hp)]
            rfl
        | nan => rfl
        | inf => rfl
        | ninf => rfl
  | tbool => exact absurd rfl hnb
  | tlist t =>
      obtain ⟨ws, rfl⟩ := fix_tlist_shape t _ _ hk
      exact Bool.noConfusion hhash
  | tdict a b => exact Option.noConfusion hk
  | tschema s => exact Option.noConfusion hk

/-- Looking up the rendered form of an absent key misses: rendered keys
identify their originals through the round trip. -/
theorem rendered_get_none (tk : TypeDef) :
    ∀ (rest restR : PyPairs),
      jsonRenderPairs rest = some restR →
      pairsAll (fun kc2 => ∃ ks2, keyToStr kc2 = some ks2 ∧
          fix_types tk (.str ks2) = some kc2) (fun _ => True) rest →
      ∀ (kc : PyValue) (ks : String), fix_types tk (.str ks) = some kc →
        pyGet rest kc = none → pyGet restR (.str ks) = none := by
  intro rest
  induction rest using PyPairs.myrec with
  | nil =>
      intro restR h _ kc ks _ _
      have h0 : restR = .nil := by simpa [jsonRenderPairs] using h.symm
      subst h0
      rfl
  | cons kc2 vc2 r2 ih =>
      intro restR h hall kc ks hfix hnone
      obtain ⟨⟨ks2, hks2, hfix2⟩, _, hall'⟩ := hall
      simp only [jsonRenderPairs, Option.pure_def, Option.bind_eq_bind,
        Option.bind_eq_some, Option.some.injEq] at h
      obtain ⟨ksr, hksr, v', hv', r2R, hr2R, hpure⟩ := h
      have hkk : ks2 = ksr := by
        rw [hks2] at hksr
        exact Option.some.inj hksr
      subst ksr
      subst hpure
      rw [pyGet] at hnone
      by_cases hkc : kc2 = kc
      · rw [if_pos hkc] at hnone
        exact Option.noConfusion hnone
      · rw [if_neg hkc] at hnone
        rw [pyGet]
        by_cases hk2 : ks2 = ks
        · exfalso
          subst hk2
          rw [hfix2] at hfix
          exact hkc (Option.some.inj hfix)
        · rw [if_neg (fun hh : PyValue.str ks2 = PyValue.str ks => by
            injection hh with hh'
            exact hk2 hh')]
          exact ih r2R hr2R hall' kc ks hfix hnone

/-- Pointwise round trip of a coerced dict: its rendering re-coerces to
itself, with distinct hashable keys. -/
theorem dict_pairs_roundtrip (tk tv : TypeDef) :
    ∀ d : PyPairs, keysDistinctB d = true →
      pairsAll
        (fun kc => hashable kc = true ∧ ∃ ks, keyToStr kc = some ks ∧
          fix_types tk (.str ks) = some kc)
        (fun vc => ∃ vc', jsonRender vc = some vc' ∧
          fix_types tv vc' = some vc) d →
      ∃ dR, jsonRenderPairs d = some dR ∧ keysDistinctB dR = true ∧
        pairsAll (fun k => hashable k = true) (fun _ => True) dR ∧
        mapCoercePairs (fix_types tk) (fix_types tv) dR = some d := by
  intro d
  induction d using PyPairs.myrec with
  | nil => exact fun _ _ => ⟨.nil, rfl, rfl, trivial, rfl⟩
  | cons kc vc rest ih =>
      intro hdist hall
      rw [keysDistinctB, Bool.and_eq_true] at hdist
      obtain ⟨⟨hh, ks, hks, hfix⟩, ⟨vc', hvr, hvf⟩, hrest⟩ := hall
      obtain ⟨restR, hrR, hdR, hhR, hmR⟩ := ih hdist.2 hrest
      refine ⟨.cons (.str ks) vc' restR, ?_, ?_, ⟨rfl, trivial, hhR⟩, ?_⟩
      · simp only [jsonRenderPairs, Option.pure_def, Option.bind_eq_bind,
          Option.bind_eq_some, Option.some.injEq, hks, hvr, hrR]
        exact ⟨ks, rfl, vc', rfl, restR, rfl, rfl⟩
      · rw [keysDistinctB, Bool.and_eq_true]
        refine ⟨?_, hdR⟩
        have hnone : pyGet rest kc = none := by
          cases hg : pyGet rest kc with
          | none => rfl
          | some w => rw [hg] at hdist; simp at hdist
        rw [rendered_get_none tk rest restR hrR
          (pairsAll_mono (fun x hx => hx.2) (fun _ _ => trivial) rest hrest)
          kc ks hfix hnone]
        rfl
      · simp only [mapCoercePairs, Option.pure_def, Option.bind_eq_bind,
          Option.bind_eq_some, Option.some.injEq, hfix, hvf, hmR]
        exact ⟨kc, rfl, vc, rfl, rest, rfl, rfl⟩

/-- Elementwise properties of a successful pairwise key/value coercion of
a JSON-document dict (given the induction hypothesis for the value
type). -/
theorem mapCoercePairs_build (tk tv : TypeDef) (hnb : tk ≠ .tbool)
    (IHv : ∀ v w, jsonDocB v = true → fix_types tv v = some w →
      ∃ w', jsonRender w = some w' ∧ fix_types tv w' = some w) :
    ∀ (kvs ps : PyPairs),
      mapCoercePairs (fix_types tk) (fix_types tv) kvs = some ps →
      pairsAll (fun k => ∃ s, k = .str s) (fun v => jsonDocB v = true) kvs →
      pairsAll (fun k => hashable k = true) (fun _ => True) ps →
      pairsAll
        (fun kc => hashable kc = true ∧ ∃ ks, keyToStr kc = some ks ∧
          fix_types tk (.str ks) = some kc)
        (fun vc => ∃ vc', jsonRender vc = some vc' ∧
          fix_types tv vc' = some vc) ps := by
  intro kvs
  induction kvs using PyPairs.myrec with
  | nil =>
      intro ps h _ _
      have h0 : ps = .nil := by simpa [mapCoercePairs] using h.symm
      subst h0
      trivial
  | cons k v rest ih =>
      intro ps h hdoc hhash
      obtain ⟨⟨sk, rfl⟩, hdv, hdoc'⟩ := hdoc
      simp only [mapCoercePairs, Option.pure_def, Option.bind_eq_bind,
        Option.bind_eq_some, Option.some.injEq] at h
      obtain ⟨kc, hkc, vc, hvc, rest', hrest', hpure⟩ := h
      subst hpure
      obtain ⟨hh, _, hhash'⟩ := hhash
      exact ⟨⟨hh, key_roundtrip tk hnb sk kc hkc hh⟩,
        IHv v vc hdv hvc, ih rest' hrest' hdoc' hhash'⟩

/-- Elementwise round trip of a coerced list (given the induction
hypothesis for the element type). -/
theorem mapCoerce_roundtrip (t : TypeDef)
    (IH : ∀ v w, jsonDocB v = true → fix_types t v = some w →
      ∃ w', jsonRender w = some w' ∧ fix_types t w' = some w) :
    ∀ (elems ws : PyList), jsonDocListB elems = true →
      mapCoerce (fix_types t) elems = some ws →
      ∃ wsR, jsonRenderList ws = some wsR ∧
        mapCoerce (fix_types t) wsR = some ws := by
  intro elems
  induction elems using PyList.myrec with
  | nil =>
      intro ws _ h
      have h0 : ws = .nil := by simpa [mapCoerce] using h.symm
      subst h0
      exact ⟨.nil, rfl, rfl⟩
  | cons v rest ih =>
      intro ws hdoc h
      rw [jsonDocListB, Bool.and_eq_true] at hdoc
      simp only [mapCoerce, Option.pure_def, Option.bind_eq_bind,
        Option.bind_eq_some, Option.some.injEq] at h
      obtain ⟨w, hw, ws', hws', hpure⟩ := h
      subst hpure
      obtain ⟨w', hwr, hwf⟩ := IH v w hdoc.1 hw
      obtain ⟨wsR', hrR, hmR⟩ := ih ws' hdoc.2 hws'
      refine ⟨.cons w' wsR', ?_, ?_⟩
      · simp only [jsonRenderList, Option.pure_def, Option.bind_eq_bind,
          Option.bind_eq_some, Option.some.injEq, hwr, hrR]
        exact ⟨w', rfl, wsR', rfl, rfl⟩
      · simp only [mapCoerce, Option.pure_def, Option.bind_eq_bind,
          Option.bind_eq_some, Option.some.injEq, hwf, hmR]
        exact ⟨w, rfl, ws', rfl, rfl⟩

/-- The field loop produces string keys and distinct keys. -/
theorem marshalFields_keyshape : ∀ (s : Schema) (kvs acc obj : PyPairs),
    marshalFields s kvs acc = some obj →
    pairsAll (fun k => ∃ n, k = .str n) (fun _ => True) acc →
    keysDistinctB acc = true →
    pairsAll (fun k => ∃ n, k = .str n) (fun _ => True) obj ∧
      keysDistinctB obj = true := by
  intro s
  induction s using Schema.myrec with
  | nil =>
      intro kvs acc obj h hstr hdist
      rw [marshalFields] at h
      have h0 : acc = obj := by simpa using h
      subst h0
      exact ⟨hstr, hdist⟩
  | cons name0 t0 rest ih =>
      intro kvs acc obj h hstr hdist
      rw [marshalFields] at h
      cases hv : pyGet kvs (.str name0) with
      | none =>
          simp only [hv] at h
          exact ih kvs acc obj h hstr hdist
      | some v =>
          simp only [hv] at h
          cases hf : fix_types t0 v with
          | none =>
              simp only [hf] at h
              exact Option.noConfusion h
          | some w =>
              simp only [hf] at h
              exact ih kvs _ obj h
                (pairsAll_dictInsert acc _ w hstr ⟨name0, rfl⟩ trivial)
                (keysDistinct_dictInsert acc _ w hdist)

/-! ### Claim C5: Python equality facts

Reflexivity of `pyEq` on NaN-free values with canonical dicts, and
canonicity of every dict the marshaller constructs. -/

/-- A key separated from an entry list is `==`-unequal (both ways) to
every key in it. -/
theorem noKeyEq_spec (k0 : PyValue) :
    ∀ ps, noKeyEq k0 ps = true → ∀ k v, entryMem k v ps →
      pyEq k0 k = false ∧ pyEq k k0 = false := by
  intro ps
  induction ps using PyPairs.myrec with
  | nil =>
      intro _ k v hm
      rw [entryMem] at hm
      exact hm.elim
  | cons k2 v2 rest ih =>
      intro h k v hm
      rw [noKeyEq, Bool.and_eq_true, Bool.and_eq_true] at h
      obtain ⟨⟨h1, h2⟩, h3⟩ := h
      rw [entryMem] at hm
      rcases hm with ⟨hk, _⟩ | hm
      · subst hk
        exact ⟨by simpa using h1, by simpa using h2⟩
      · exact ih h3 k v hm

/-- In a dict with `==`-separated keys, a key with reflexive `==` binds a
unique value. -/
theorem keysSep_unique :
    ∀ ps, keysSepP ps = true → ∀ k v v2, pyEq k k = true →
      entryMem k v ps → entryMem k v2 ps → v2 = v := by
  intro ps
  induction ps using PyPairs.myrec with
  | nil =>
      intro _ k v v2 _ hm _
      rw [entryMem] at hm
      exact hm.elim
  | cons k1 v1 rest ih =>
      intro h k v v2 hrefl hm1 hm2
      rw [keysSepP, Bool.and_eq_true] at h
      rw [entryMem] at hm1 hm2
      rcases hm1 with ⟨hk1, hv1⟩ | hm1
      · rcases hm2 with ⟨_, hv2⟩ | hm2
        · rw [← hv2, ← hv1]
        · exfalso
          have hcontra := (noKeyEq_spec k1 rest h.1 k v2 hm2).1
          rw [hk1, hrefl] at hcontra
          exact Bool.noConfusion hcontra
      · rcases hm2 with ⟨hk2, _⟩ | hm2
        · exfalso
          have hcontra := (noKeyEq_spec k1 rest h.1 k v hm1).1
          rw [hk2, hrefl] at hcontra
          exact Bool.noConfusion hcontra
        · exact ih h.2 k v v2 hrefl hm1 hm2

/-- In a dict with `==`-separated keys, structurally distinct keys are
`==`-unequal. -/
theorem keysSep_distinct :
    ∀ ps, keysSepP ps = true → ∀ k v k2 v2, entryMem k v ps →
      entryMem k2 v2 ps → k2 ≠ k → pyEq k k2 = false := by
  intro ps
  induction ps using PyPairs.myrec with
  | nil =>
      intro _ k v k2 v2 hm _ _
      rw [entryMem] at hm
      exact hm.elim
  | cons k1 v1 rest ih =>
      intro h k v k2 v2 hm1 hm2 hne
      rw [keysSepP, Bool.and_eq_true] at h
      rw [entryMem] at hm1 hm2
      rcases hm1 with ⟨hk1, _⟩ | hm1
      · rcases hm2 with ⟨hk2, _⟩ | hm2
        · exact absurd (hk2.symm.trans hk1) hne
        · have := (noKeyEq_spec k1 rest h.1 k2 v2 hm2).1
          rw [hk1] at this
          exact this
      · rcases hm2 with ⟨hk2, _⟩ | hm2
        · have := (noKeyEq_spec k1 rest h.1 k v hm1).2
          rw [hk2] at this
          exact this
        · exact ih h.2 k v k2 v2 hm1 hm2 hne

/-- A present entry whose key is `==`-unequal to the other keys and
`==`-reflexive, with a unique binding, is found by Python's `k in d and
d[k] == v` scan. -/
theorem pyMemKV_self :
    ∀ b k v, pyEq k k = true → pyEq v v = true → entryMem k v b →
      (∀ k2 v2, entryMem k2 v2 b → k2 ≠ k → pyEq k k2 = false) →
      (∀ v2, entryMem k v2 b → v2 = v) →
      pyMemKV k v b = true := by
  intro b
  induction b using PyPairs.myrec with
  | nil =>
      intro k v _ _ hm _ _
      rw [entryMem] at hm
      exact hm.elim
  | cons k2 v2 rest ih =>
      intro k v hrk hrv hm hdist huniq
      rw [pyMemKV]
      by_cases hk : k2 = k
      · rw [hk, hrk, if_pos rfl]
        have hv2 : v2 = v := huniq v2 (by
          rw [entryMem]
          exact Or.inl ⟨hk, rfl⟩)
        rw [hv2]
        exact hrv
      · have hfalse : pyEq k k2 = false :=
          hdist k2 v2 (by rw [entryMem]; exact Or.inl ⟨rfl, rfl⟩) hk
        rw [if_neg (by simp [hfalse])]
        have hm' : entryMem k v rest := by
          rw [entryMem] at hm
          rcases hm with ⟨hk2, _⟩ | hm'
          · exact absurd hk2 hk
          · exact hm'
        exact ih k v hrk hrv hm'
          (fun k3 v3 hm3 hne =>
            hdist k3 v3 (by rw [entryMem]; exact Or.inr hm3) hne)
          (fun v3 hm3 => huniq v3 (by rw [entryMem]; exact Or.inr hm3))

/-- Python dict containment holds entrywise. -/
theorem pyEqP_of : ∀ sub b,
    (∀ k v, entryMem k v sub → pyMemKV k v b = true) →
    pyEqP sub b = true := by
  intro sub
  induction sub using PyPairs.myrec with
  | nil => intro b _; rw [pyEqP]
  | cons k v rest ih =>
      intro b h
      rw [pyEqP, Bool.and_eq_true]
      exact ⟨h k v (by rw [entryMem]; exact Or.inl ⟨rfl, rfl⟩),
        ih b (fun k2 v2 hm => h k2 v2 (by rw [entryMem]; exact Or.inr hm))⟩

mutual

/-- Python `==` is reflexive on values without NaN whose dicts have
`==`-separated keys — exactly the values a real Python program can hold
apart from NaN. -/
theorem pyEq_refl (v : PyValue) (h1 : noNanV v = true)
    (h2 : canonV v = true) : pyEq v v = true := by
  cases v with
  | null => rw [pyEq]
  | bool b => cases b <;> simp [pyEq, numEqWith, asNum, pfloatEq]
  | int n => simp [pyEq, numEqWith, asNum, pfloatEq]
  | float f =>
      cases f with
      | finite q => simp [pyEq, numEqWith, asNum, pfloatEq]
      | nan => rw [noNanV] at h1; exact Bool.noConfusion h1
      | inf => simp [pyEq, numEqWith, asNum, pfloatEq]
      | ninf => simp [pyEq, numEqWith, asNum, pfloatEq]
  | str s => simp [pyEq]
  | list xs =>
      rw [pyEq]
      show pyEqL xs xs = true
      exact pyEqL_refl xs h1 h2
  | dict kvs =>
      rw [show noNanV (.dict kvs) = noNanP kvs from rfl] at h1
      rw [show canonV (.dict kvs) = (keysSepP kvs && canonP kvs) from rfl,
        Bool.and_eq_true] at h2
      rw [pyEq]
      show (decide (kvs.keys.length = kvs.keys.length) && pyEqP kvs kvs) = true
      rw [Bool.and_eq_true]
      refine ⟨by simp, ?_⟩
      have hfacts := pyEqP_entryRefl kvs h1 h2.2
      refine pyEqP_of kvs kvs (fun k v hm => ?_)
      obtain ⟨hrk, hrv⟩ := hfacts k v hm
      exact pyMemKV_self kvs k v hrk hrv hm
        (fun k2 v2 hm2 hne => keysSep_distinct kvs h2.1 k v k2 v2 hm hm2 hne)
        (fun v2 hm2 => keysSep_unique kvs h2.1 k v v2 hrk hm hm2)

/-- Pointwise reflexivity on lists. -/
theorem pyEqL_refl (xs : PyList) (h1 : noNanL xs = true)
    (h2 : canonL xs = true) : pyEqL xs xs = true := by
  cases xs with
  | nil => rw [pyEqL]
  | cons v rest =>
      rw [noNanL, Bool.and_eq_true] at h1
      rw [canonL, Bool.and_eq_true] at h2
      rw [pyEqL]
      show (pyEq v v && pyEqL rest rest) = true
      rw [Bool.and_eq_true]
      exact ⟨pyEq_refl v h1.1 h2.1, pyEqL_refl rest h1.2 h2.2⟩

/-- Reflexivity facts for every key and value of an entry list. -/
theorem pyEqP_entryRefl (ps : PyPairs) (h1 : noNanP ps = true)
    (h2 : canonP ps = true) :
    ∀ k v, entryMem k v ps → pyEq k k = true ∧ pyEq v v = true := by
  cases ps with
  | nil =>
      intro k v hm
      rw [entryMem] at hm
      exact hm.elim
  | cons k2 v2 rest =>
      intro k v hm
      rw [noNanP, Bool.and_eq_true, Bool.and_eq_true] at h1
      rw [canonP, Bool.and_eq_true, Bool.and_eq_true] at h2
      rw [entryMem] at hm
      rcases hm with ⟨hk, hv⟩ | hm
      · rw [← hk, ← hv]
        exact ⟨pyEq_refl k2 h1.1.1 h2.1.1, pyEq_refl v2 h1.1.2 h2.1.2⟩
      · exact pyEqP_entryRefl rest h1.2 h2.2 k v hm

end

/-- The value shape a scalar key descriptor produces (keys of a coerced
dict all have the kind of the key descriptor). -/
def sameKindKey : TypeDef → PyValue → Prop
  | .tstr, v => ∃ s, v = .str s
  | .tint, v => ∃ n, v = .int n
  | .tfloat, v => ∃ f, v = .float f
  | .tbool, v => ∃ b, v = .bool b
  | _, _ => False

/-- A successful, hashable key coercion of a string yields a value of the
key descriptor's scalar kind. -/
theorem fix_key_shape (tk : TypeDef) (sk : String) (kc : PyValue)
    (hfix : fix_types tk (.str sk) = some kc) (hh : hashable kc = true) :
    sameKindKey tk kc := by
  cases tk with
  | tstr => exact ⟨pyStr (.str sk), (Option.some.inj hfix).symm⟩
  | tint =>
      rcases hp : pyInt (.str sk) with _ | n
      · rw [show fix_types .tint (.str sk)
            = (pyInt (.str sk)).map PyValue.int from rfl, hp] at hfix
        exact Option.noConfusion hfix
      · rw [show fix_types .tint (.str sk)
            = (pyInt (.str sk)).map PyValue.int from rfl, hp] at hfix
        exact ⟨n, (Option.some.inj hfix).symm⟩
  | tfloat =>
      rcases hp : pyFloat (.str sk) with _ | f
      · rw [show fix_types .tfloat (.str sk)
            = (pyFloat (.str sk)).map PyValue.float from rfl, hp] at hfix
        exact Option.noConfusion hfix
      · rw [show fix_types .tfloat (.str sk)
            = (pyFloat (.str sk)).map PyValue.float from rfl, hp] at hfix
        exact ⟨f, (Option.some.inj hfix).symm⟩
  | tbool => exact ⟨pyBool (.str sk), (Option.some.inj hfix).symm⟩
  | tlist t =>
      obtain ⟨ws, rfl⟩ := fix_tlist_shape t _ _ hfix
      exact Bool.noConfusion hh
  | tdict a b => exact Option.noConfusion hfix
  | tschema s => exact Option.noConfusion hfix

/-- A true float `==` means structurally equal floats (NaN equals
nothing). -/
theorem pfloatEq_true_eq : ∀ f g : PFloat, pfloatEq f g = true → f = g := by
  intro f g h
  cases f <;> cases g <;> simp_all [pfloatEq]

/-- Structurally distinct keys of one scalar kind are `==`-unequal. -/
theorem sameKind_pyEq_false (tk : TypeDef) (a b : PyValue)
    (ha : sameKindKey tk a) (hb : sameKindKey tk b) (hne : a ≠ b) :
    pyEq a b = false := by
  cases tk with
  | tstr =>
      obtain ⟨s1, rfl⟩ := ha
      obtain ⟨s2, rfl⟩ := hb
      have hs : s1 ≠ s2 := fun h => hne (by rw [h])
      rw [pyEq]
      show decide (s1 = s2) = false
      simp [hs]
  | tint =>
      obtain ⟨n1, rfl⟩ := ha
      obtain ⟨n2, rfl⟩ := hb
      have hn : n1 ≠ n2 := fun h => hne (by rw [h])
      rw [pyEq]
      show numEqWith (.finite (n1 : Rat)) (.int n2) = false
      show pfloatEq (.finite (n1 : Rat)) (.finite (n2 : Rat)) = false
      simp only [pfloatEq, decide_eq_false_iff_not]
      intro hc
      exact hn (by exact_mod_cast hc)
  | tfloat =>
      obtain ⟨f1, rfl⟩ := ha
      obtain ⟨f2, rfl⟩ := hb
      have hf : f1 ≠ f2 := fun h => hne (by rw [h])
      rw [pyEq]
      show pfloatEq f1 f2 = false
      cases hpe : pfloatEq f1 f2
      · rfl
      · exact absurd (pfloatEq_true_eq f1 f2 hpe) hf
  | tbool =>
      obtain ⟨b1, rfl⟩ := ha
      obtain ⟨b2, rfl⟩ := hb
      have hbne : b1 ≠ b2 := fun h => hne (by rw [h])
      rw [pyEq]
      show pfloatEq (.finite (if b1 then 1 else 0))
        (.finite (if b2 then 1 else 0)) = false
      cases b1 <;> cases b2 <;>
        first
          | exact absurd rfl hbne
          | simp [pfloatEq]
  | tlist t => exact ha.elim
  | tdict a2 b2 => exact ha.elim
  | tschema s => exact ha.elim

/-- One fresh same-kind key is separated from a same-kind entry list. -/
theorem noKeyEq_of_sameKind (tk : TypeDef) (k : PyValue)
    (hk : sameKindKey tk k) :
    ∀ rest, pairsAll (sameKindKey tk) (fun _ => True) rest →
      pairsAll (fun k2 => k2 ≠ k) (fun _ => True) rest →
      noKeyEq k rest = true := by
  intro rest
  induction rest using PyPairs.myrec with
  | nil => intro _ _; rw [noKeyEq]
  | cons k2 v2 r ih =>
      intro hall hne
      obtain ⟨hk2, _, hall'⟩ := hall
      obtain ⟨hne2, _, hne'⟩ := hne
      rw [noKeyEq, Bool.and_eq_true, Bool.and_eq_true]
      refine ⟨⟨?_, ?_⟩, ih hall' hne'⟩
      · rw [sameKind_pyEq_false tk k k2 hk hk2 (fun h => hne2 h.symm)]
        rfl
      · rw [sameKind_pyEq_false tk k2 k hk2 hk hne2]
        rfl

/-- Structural key distinctness plus a single scalar key kind give
`==`-separated keys. -/
theorem keysSep_of_sameKind (tk : TypeDef) :
    ∀ d, keysDistinctB d = true →
      pairsAll (sameKindKey tk) (fun _ => True) d → keysSepP d = true := by
  intro d
  induction d using PyPairs.myrec with
  | nil => intro _ _; rw [keysSepP]
  | cons k v rest ih =>
      intro hdist hall
      rw [keysDistinctB, Bool.and_eq_true] at hdist
      obtain ⟨hk, _, hall'⟩ := hall
      rw [keysSepP, Bool.and_eq_true]
      have hfresh : pyGet rest k = none := by
        cases hg : pyGet rest k with
        | none => rfl
        | some w => rw [hg] at hdist; simp at hdist
      exact ⟨noKeyEq_of_sameKind tk k hk rest hall'
        (pairsAll_ne_of_get_none k rest hfresh), ih hdist.2 hall'⟩

/-- Canonicity of an entry list follows from canonicity of its keys and
values. -/
theorem canonP_of_pairsAll :
    ∀ d, pairsAll (fun k => canonV k = true) (fun v => canonV v = true) d →
      canonP d = true := by
  intro d
  induction d using PyPairs.myrec with
  | nil => intro _; rfl
  | cons k v rest ih =>
      intro h
      obtain ⟨h1, h2, h3⟩ := h
      rw [canonP, Bool.and_eq_true, Bool.and_eq_true]
      exact ⟨⟨h1, h2⟩, ih h3⟩

/-- Insertion preserves entrywise canonicity. -/
theorem canonP_dictInsert (ps : PyPairs) (k w : PyValue)
    (hps : canonP ps = true) (hk : canonV k = true) (hw : canonV w = true) :
    canonP (dictInsert ps k w) = true := by
  induction ps using PyPairs.myrec with
  | nil =>
      rw [dictInsert, canonP, Bool.and_eq_true, Bool.and_eq_true]
      exact ⟨⟨hk, hw⟩, rfl⟩
  | cons k2 v2 rest ih =>
      rw [canonP, Bool.and_eq_true, Bool.and_eq_true] at hps
      by_cases hkk : k2 = k
      · rw [dictInsert, if_pos hkk, canonP, Bool.and_eq_true, Bool.and_eq_true]
        exact ⟨⟨hps.1.1, hw⟩, hps.2⟩
      · rw [dictInsert, if_neg hkk, canonP, Bool.and_eq_true, Bool.and_eq_true]
        exact ⟨hps.1, ih hps.2⟩

/-- Elementwise canonicity of a coerced list (given the induction
hypothesis for the element type). -/
theorem canonL_mapCoerce (t : TypeDef)
    (IH : ∀ v w, jsonDocB v = true → fix_types t v = some w →
      canonV w = true) :
    ∀ (elems ws : PyList), jsonDocListB elems = true →
      mapCoerce (fix_types t) elems = some ws → canonL ws = true := by
  intro elems
  induction elems using PyList.myrec with
  | nil =>
      intro ws _ h
      have h0 : ws = .nil := by simpa [mapCoerce] using h.symm
      subst h0
      rfl
  | cons v rest ih =>
      intro ws hdoc h
      rw [jsonDocListB, Bool.and_eq_true] at hdoc
      simp only [mapCoerce, Option.pure_def, Option.bind_eq_bind,
        Option.bind_eq_some, Option.some.injEq] at h
      obtain ⟨w, hw, ws', hws', hpure⟩ := h
      subst hpure
      rw [canonL, Bool.and_eq_true]
      exact ⟨IH v w hdoc.1 hw, ih ws' hdoc.2 hws'⟩

/-- Shape and canonicity of the entries of a pairwise key/value coercion
(given the induction hypotheses for the key and value types). -/
theorem canonPairs_build (tk tv : TypeDef)
    (IHk : ∀ v w, jsonDocB v = true → fix_types tk v = some w →
      canonV w = true)
    (IHv : ∀ v w, jsonDocB v = true → fix_types tv v = some w →
      canonV w = true) :
    ∀ (kvs ps : PyPairs),
      mapCoercePairs (fix_types tk) (fix_types tv) kvs = some ps →
      pairsAll (fun k => ∃ s, k = .str s) (fun v => jsonDocB v = true) kvs →
      pairsAll
        (fun kc => (hashable kc = true → sameKindKey tk kc) ∧
          canonV kc = true)
        (fun vc => canonV vc = true) ps := by
  intro kvs
  induction kvs using PyPairs.myrec with
  | nil =>
      intro ps h _
      have h0 : ps = .nil := by simpa [mapCoercePairs] using h.symm
      subst h0
      trivial
  | cons k v rest ih =>
      intro ps h hdoc
      obtain ⟨⟨sk, rfl⟩, hdv, hdoc'⟩ := hdoc
      simp only [mapCoercePairs, Option.pure_def, Option.bind_eq_bind,
        Option.bind_eq_some, Option.some.injEq] at h
      obtain ⟨kc, hkc, vc, hvc, rest', hrest', hpure⟩ := h
      subst hpure
      exact ⟨⟨fun hh => fix_key_shape tk sk kc hkc hh,
        IHk (.str sk) kc rfl hkc⟩, IHv v vc hdv hvc, ih rest' hrest' hdoc'⟩

mutual

/-- Every value the marshaller builds from a JSON document is canonical:
each of its dicts has `==`-separated keys (coerced dicts carry
structurally distinct keys of one scalar kind; the output record carries
distinct field-name strings). -/
theorem canonFix (t : TypeDef) (v w : PyValue) (hdoc : jsonDocB v = true)
    (hfix : fix_types t v = some w) : canonV w = true := by
  cases t with
  | tstr =>
      have h0 := Option.some.inj hfix
      rw [← h0]
      rfl
  | tint =>
      rcases hp : pyInt v with _ | n
      · rw [show fix_types .tint v = (pyInt v).map PyValue.int from rfl,
          hp] at hfix
        exact Option.noConfusion hfix
      · rw [show fix_types .tint v = (pyInt v).map PyValue.int from rfl,
          hp] at hfix
        rw [← Option.some.inj hfix]
        rfl
  | tfloat =>
      rcases hp : pyFloat v with _ | f
      · rw [show fix_types .tfloat v = (pyFloat v).map PyValue.float from rfl,
          hp] at hfix
        exact Option.noConfusion hfix
      · rw [show fix_types .tfloat v = (pyFloat v).map PyValue.float from rfl,
          hp] at hfix
        rw [← Option.some.inj hfix]
        rfl
  | tbool =>
      rw [← Option.some.inj hfix]
      rfl
  | tlist t' =>
      simp only [fix_types, Option.pure_def, Option.bind_eq_bind,
        Option.bind_eq_some, Option.some.injEq] at hfix
      obtain ⟨elems, hiter, ws, hmap, hpure⟩ := hfix
      subst hpure
      have hdocl := jsonDoc_iter v elems hdoc hiter
      show canonL ws = true
      exact canonL_mapCoerce t'
        (fun v' w' hd hf => canonFix t' v' w' hd hf) elems ws hdocl hmap
  | tdict tk tv =>
      cases v with
      | null =>
          rw [← Option.some.inj hfix]
          rfl
      | dict kvs =>
          simp only [fix_types, Option.pure_def, Option.bind_eq_bind,
            Option.bind_eq_some, Option.some.injEq] at hfix
          obtain ⟨ps, hps, d, hd, hpure⟩ := hfix
          subst hpure
          have hhash_ps := pyDictOfPairsAux_hashable ps .nil d hd
          have hall_ps := canonPairs_build tk tv
            (fun v' w' hd' hf => canonFix tk v' w' hd' hf)
            (fun v' w' hd' hf => canonFix tv v' w' hd' hf)
            kvs ps hps (jsonDoc_keys_str kvs hdoc)
          obtain ⟨hdist_d, hall_d⟩ := pyDictOfPairsAux_spec ps .nil d hd
            rfl trivial (pairsAll_and ps hall_ps hhash_ps)
          show (keysSepP d && canonP d) = true
          rw [Bool.and_eq_true]
          constructor
          · exact keysSep_of_sameKind tk d hdist_d
              (pairsAll_mono (fun x hx => hx.1.1 hx.2) (fun _ _ => trivial)
                d hall_d)
          · exact canonP_of_pairsAll d
              (pairsAll_mono (fun x hx => hx.1.2) (fun x hx => hx.1)
                d hall_d)
      | bool b => exact Option.noConfusion hfix
      | int n => exact Option.noConfusion hfix
      | float f => exact Option.noConfusion hfix
      | str s => exact Option.noConfusion hfix
      | list xs => exact Option.noConfusion hfix
  | tschema s =>
      cases v with
      | dict kvs =>
          rw [show fix_types (.tschema s) (.dict kvs)
              = (marshalFields s kvs .nil).map PyValue.dict from rfl] at hfix
          cases hrun : marshalFields s kvs .nil with
          | none => rw [hrun] at hfix; exact Option.noConfusion hfix
          | some obj =>
              rw [hrun] at hfix
              rw [← Option.some.inj hfix]
              obtain ⟨hstr_obj, hdist_obj⟩ :=
                marshalFields_keyshape s kvs .nil obj hrun trivial rfl
              show (keysSepP obj && canonP obj) = true
              rw [Bool.and_eq_true]
              constructor
              · exact keysSep_of_sameKind .tstr obj hdist_obj
                  (pairsAll_mono (fun x hx => hx) (fun _ _ => trivial)
                    obj hstr_obj)
              · exact canonFields s kvs .nil obj hdoc hrun rfl
      | null => exact Option.noConfusion hfix
      | bool b => exact Option.noConfusion hfix
      | int n => exact Option.noConfusion hfix
      | float f => exact Option.noConfusion hfix
      | str s' => exact Option.noConfusion hfix
      | list xs => exact Option.noConfusion hfix

/-- The field loop preserves entrywise canonicity of the accumulator. -/
theorem canonFields (s : Schema) (kvs acc obj : PyPairs)
    (hdoc : jsonDocPairsB kvs = true)
    (hrun : marshalFields s kvs acc = some obj)
    (hacc : canonP acc = true) : canonP obj = true := by
  cases s with
  | nil =>
      rw [marshalFields] at hrun
      have h0 : acc = obj := by simpa using hrun
      rw [← h0]
      exact hacc
  | cons name0 t0 rest =>
      rw [marshalFields] at hrun
      cases hv : pyGet kvs (.str name0) with
      | none =>
          simp only [hv] at hrun
          exact canonFields rest kvs acc obj hdoc hrun hacc
      | some v =>
          simp only [hv] at hrun
          cases hf : fix_types t0 v with
          | none =>
              simp only [hf] at hrun
              exact Option.noConfusion hrun
          | some w =>
              simp only [hf] at hrun
              have hdocv := jsonDoc_get kvs (.str name0) v hdoc hv
              exact canonFields rest kvs (dictInsert acc (.str name0) w)
                obj hdoc hrun
                (canonP_dictInsert acc (.str name0) w hacc rfl
                  (canonFix t0 v w hdocv hf))

end

mutual

/-- C5 core, type side: a successful coercion renders to JSON and
re-coerces to itself, for JSON-document inputs under descriptors with no
boolean mapping keys and duplicate-free nested schemas. -/
theorem fixIdem (t : TypeDef) (v w : PyValue) (hdoc : jsonDocB v = true)
    (hnb : noBoolKeyT t = true) (hnd : nodupT t = true)
    (hfix : fix_types t v = some w) :
    ∃ w', jsonRender w = some w' ∧ fix_types t w' = some w := by
  cases t with
  | tstr =>
      have h0 := Option.some.inj hfix
      subst h0
      exact ⟨.str (pyStr v), rfl, rfl⟩
  | tint =>
      rcases hp : pyInt v with _ | n
      · rw [show fix_types .tint v = (pyInt v).map PyValue.int from rfl,
          hp] at hfix
        exact Option.noConfusion hfix
      · rw [show fix_types .tint v = (pyInt v).map PyValue.int from rfl,
          hp] at hfix
        have h0 := Option.some.inj hfix
        subst h0
        exact ⟨.int n, rfl, rfl⟩
  | tfloat =>
      rcases hp : pyFloat v with _ | q
      · rw [show fix_types .tfloat v = (pyFloat v).map PyValue.float from rfl,
          hp] at hfix
        exact Option.noConfusion hfix
      · rw [show fix_types .tfloat v = (pyFloat v).map PyValue.float from rfl,
          hp] at hfix
        have h0 := Option.some.inj hfix
        subst h0
        exact ⟨.float q, rfl, rfl⟩
  | tbool =>
      have h0 := Option.some.inj hfix
      subst h0
      exact ⟨.bool (pyBool v), rfl, rfl⟩
  | tlist t =>
      simp only [fix_types, Option.pure_def, Option.bind_eq_bind,
        Option.bind_eq_some, Option.some.injEq] at hfix
      obtain ⟨elems, hiter, ws, hmap, hpure⟩ := hfix
      subst hpure
      have hdocl := jsonDoc_iter v elems hdoc hiter
      obtain ⟨wsR, hrR, hmR⟩ := mapCoerce_roundtrip t
        (fun v' w' hd hf => fixIdem t v' w' hd hnb hnd hf)
        elems ws hdocl hmap
      refine ⟨.list wsR, ?_, ?_⟩
      · rw [show jsonRender (.list ws) = (jsonRenderList ws).map PyValue.list
          from rfl, hrR]
        rfl
      · simp only [fix_types, Option.pure_def, Option.bind_eq_bind,
          Option.bind_eq_some, Option.some.injEq]
        exact ⟨wsR, rfl, ws, hmR, rfl⟩
  | tdict tk tv =>
      rw [noBoolKeyT, Bool.and_eq_true, Bool.and_eq_true] at hnb
      obtain ⟨⟨hnbk, hnbtk⟩, hnbtv⟩ := hnb
      rw [nodupT, Bool.and_eq_true] at hnd
      cases v with
      | null =>
          have h0 := Option.some.inj hfix
          subst h0
          exact ⟨.null, rfl, rfl⟩
      | dict kvs =>
          simp only [fix_types, Option.pure_def, Option.bind_eq_bind,
            Option.bind_eq_some, Option.some.injEq] at hfix
          obtain ⟨ps, hps, d, hd, hpure⟩ := hfix
          subst hpure
          have hhash_ps := pyDictOfPairsAux_hashable ps .nil d hd
          have hall_ps := mapCoercePairs_build tk tv
            (by simpa using hnbk)
            (fun v' w' hdv hf => fixIdem tv v' w' hdv hnbtv hnd.2 hf)
            kvs ps hps
            (pairsAll_mono (fun x hx => hx) (fun x hx => hx) kvs
              (jsonDoc_keys_str kvs hdoc))
            hhash_ps
          obtain ⟨hdist_d, hall_d⟩ := pyDictOfPairsAux_spec ps .nil d hd
            rfl trivial hall_ps
          obtain ⟨dR, hrd, hdistR, hhashR, hmback⟩ :=
            dict_pairs_roundtrip tk tv d hdist_d hall_d
          refine ⟨.dict dR, ?_, ?_⟩
          · simp only [jsonRender, Option.pure_def, Option.bind_eq_bind,
              Option.bind_eq_some, Option.some.injEq]
            exact ⟨dR, hrd, dR,
              pyDictOfPairs_id dR hdistR
                (pairsAll_mono (fun x hx => hx) (fun _ _ => trivial) dR
                  hhashR), rfl⟩
          · simp only [fix_types, Option.pure_def, Option.bind_eq_bind,
              Option.bind_eq_some, Option.some.injEq]
            exact ⟨d, hmback, d,
              pyDictOfPairs_id d hdist_d
                (pairsAll_mono (fun x hx => hx.1) (fun _ _ => trivial) d
                  hall_d), rfl⟩
      | bool b => exact Option.noConfusion hfix
      | int n => exact Option.noConfusion hfix
      | float q => exact Option.noConfusion hfix
      | str s => exact Option.noConfusion hfix
      | list xs => exact Option.noConfusion hfix
  | tschema s =>
      cases v with
      | dict kvs =>
          rw [show fix_types (.tschema s) (.dict kvs)
              = (marshalFields s kvs .nil).map PyValue.dict from rfl] at hfix
          cases hrun : marshalFields s kvs .nil with
          | none => rw [hrun] at hfix; exact Option.noConfusion hfix
          | some obj =>
              rw [hrun] at hfix
              have h0 := Option.some.inj hfix
              subst h0
              have hdocp : jsonDocPairsB kvs = true := hdoc
              obtain ⟨hstr_obj, hdist_obj⟩ :=
                marshalFields_keyshape s kvs .nil obj hrun trivial rfl
              obtain ⟨hrend, hremarshal⟩ := marshalFieldsIdem s kvs .nil obj
                hdocp hnb hnd (fun n _ => rfl) hrun
              obtain ⟨objR, hobjR⟩ := hrend .nil rfl
              have hgetR := jsonRenderPairs_get obj objR hobjR
                (pairsAll_mono (fun x hx => hx) (fun _ _ => trivial) obj
                  hstr_obj)
              refine ⟨.dict objR, ?_, ?_⟩
              · simp only [jsonRender, Option.pure_def, Option.bind_eq_bind,
                  Option.bind_eq_some, Option.some.injEq]
                refine ⟨objR, hobjR, objR, ?_, rfl⟩
                exact pyDictOfPairs_id objR
                  (jsonRenderPairs_distinct obj objR hobjR
                    (pairsAll_mono (fun x hx => hx) (fun _ _ => trivial)
                      obj hstr_obj) hdist_obj)
                  (pairsAll_mono (fun x hx => hx.1) (fun _ _ => trivial)
                    objR (jsonRenderPairs_keys obj objR hobjR))
              · rw [show fix_types (.tschema s) (.dict objR)
                    = (marshalFields s objR .nil).map PyValue.dict from rfl,
                  hremarshal objR (fun n _ => hgetR n)]
                rfl
      | null => exact Option.noConfusion hfix
      | bool b => exact Option.noConfusion hfix
      | int n => exact Option.noConfusion hfix
      | float q => exact Option.noConfusion hfix
      | str s' => exact Option.noConfusion hfix
      | list xs => exact Option.noConfusion hfix

/-- C5 core, schema side: the field loop's output renders pairwise, and
re-running the loop on any source that holds the rendered bindings of the
declared names reproduces the output exactly. -/
theorem marshalFieldsIdem (s : Schema) (kvs acc obj : PyPairs)
    (hdoc : jsonDocPairsB kvs = true) (hnb : noBoolKeyS s = true)
    (hnd : nodupS s = true)
    (hdisj : ∀ n, n ∈ namesOf s → pyGet acc (.str n) = none)
    (hrun : marshalFields s kvs acc = some obj) :
    (∀ accR, jsonRenderPairs acc = some accR →
      ∃ objR, jsonRenderPairs obj = some objR) ∧
    (∀ R, (∀ n, n ∈ namesOf s →
        pyGet R (.str n) = (pyGet obj (.str n)).bind jsonRender) →
      marshalFields s R acc = some obj) := by
  cases s with
  | nil =>
      rw [marshalFields] at hrun
      have h0 : acc = obj := by simpa using hrun
      subst h0
      exact ⟨fun accR hr => ⟨accR, hr⟩, fun R _ => rfl⟩
  | cons name0 t0 rest =>
      rw [noBoolKeyS, Bool.and_eq_true] at hnb
      have hndfull := hnd
      rw [nodupS, Bool.and_eq_true, Bool.and_eq_true] at hnd
      obtain ⟨⟨hnc, hndt0⟩, hndrest⟩ := hnd
      have hname0 : name0 ∉ namesOf rest := by simpa using hnc
      rw [marshalFields] at hrun
      cases hv : pyGet kvs (.str name0) with
      | none =>
          simp only [hv] at hrun
          have hdisj' : ∀ n, n ∈ namesOf rest → pyGet acc (.str n) = none :=
            fun n hn => hdisj n (List.mem_cons_of_mem _ hn)
          obtain ⟨hrend, hrem⟩ := marshalFieldsIdem rest kvs acc obj hdoc
            hnb.2 hndrest hdisj' hrun
          refine ⟨hrend, fun R hR => ?_⟩
          have hobj0 : pyGet obj (.str name0) = none := by
            rw [marshalFields_get (.cons name0 t0 rest) kvs acc obj hndfull
              (by rw [marshalFields]; simp only [hv]; exact hrun) name0]
            have hsf : schemaFind (.cons name0 t0 rest) name0 = some t0 := by
              rw [schemaFind, if_pos rfl]
            simp only [hsf, hv]
            exact hdisj name0 (List.mem_cons_self _ _)
          have hR0 : pyGet R (.str name0) = none := by
            rw [hR name0 (List.mem_cons_self _ _), hobj0]
            rfl
          rw [marshalFields]
          simp only [hR0]
          exact hrem R (fun n hn => hR n (List.mem_cons_of_mem _ hn))
      | some v =>
          simp only [hv] at hrun
          cases hf : fix_types t0 v with
          | none =>
              simp only [hf] at hrun
              exact Option.noConfusion hrun
          | some w =>
              simp only [hf] at hrun
              have hdocv := jsonDoc_get kvs (.str name0) v hdoc hv
              obtain ⟨w', hwr, hwf⟩ := fixIdem t0 v w hdocv hnb.1 hndt0 hf
              have hfresh : pyGet acc (.str name0) = none :=
                hdisj name0 (List.mem_cons_self _ _)
              have hdisj' : ∀ n, n ∈ namesOf rest →
                  pyGet (dictInsert acc (.str name0) w) (.str n) = none := by
                intro n hn
                have hne : ¬ (PyValue.str n = PyValue.str name0) := by
                  intro hh
                  injection hh with hh'
                  exact hname0 (hh' ▸ hn)
                rw [pyGet_dictInsert, if_neg hne]
                exact hdisj n (List.mem_cons_of_mem _ hn)
              obtain ⟨hrend, hrem⟩ := marshalFieldsIdem rest kvs
                (dictInsert acc (.str name0) w) obj hdoc hnb.2 hndrest
                hdisj' hrun
              constructor
              · intro accR haccR
                have hsingle : jsonRenderPairs (.cons (.str name0) w .nil)
                    = some (.cons (.str name0) w' .nil) := by
                  simp only [jsonRenderPairs, Option.pure_def,
                    Option.bind_eq_bind, Option.bind_eq_some,
                    Option.some.injEq, keyToStr, hwr]
                  exact ⟨name0, rfl, w', rfl, .nil, rfl, rfl⟩
                have hins : jsonRenderPairs (dictInsert acc (.str name0) w)
                    = some (accR.append (.cons (.str name0) w' .nil)) := by
                  rw [dictInsert_fresh acc _ w hfresh]
                  exact jsonRenderPairs_append acc _ accR _ haccR hsingle
                exact hrend _ hins
              · intro R hR
                have hobj0 : pyGet obj (.str name0) = some w := by
                  rw [marshalFields_get (.cons name0 t0 rest) kvs acc obj
                    hndfull (by rw [marshalFields]; simp only [hv, hf]; exact hrun) name0]
                  have hsf : schemaFind (.cons name0 t0 rest) name0
                      = some t0 := by
                    rw [schemaFind, if_pos rfl]
                  simp only [hsf, hv, hf]
                have hR0 : pyGet R (.str name0) = some w' := by
                  rw [hR name0 (List.mem_cons_self _ _), hobj0]
                  simpa using hwr
                rw [marshalFields]
                simp only [hR0, hwf]
                exact hrem R (fun n hn => hR n (List.mem_cons_of_mem _ hn))

end

/-! ### Claim C5: marshalling idempotence under the JSON round trip -/

/-- C5 counterexample: under `{"f": Dict[bool, str]}` the JSON document
`{"f": {"": "x"}}` (a valid document whose only field is declared, on
which `marshal` succeeds) marshals to `{"f": {False: "x"}}` — `bool("")`
is `False` — but `json.dumps` renders the `False` key as `"false"`, and
re-marshalling coerces the nonempty string `"false"` to `True`: the
second marshal differs from the first, refuting idempotence as claimed. -/
theorem marshal_render_not_idempotent :
    jsonDocB (.dict (.cons (.str "f")
        (.dict (.cons (.str "") (.str "x") .nil)) .nil)) = true ∧
    marshal (.cons "f" (.tdict .tbool .tstr) .nil)
        (.dict (.cons (.str "f")
          (.dict (.cons (.str "") (.str "x") .nil)) .nil))
      = some (.dict (.cons (.str "f")
          (.dict (.cons (.bool false) (.str "x") .nil)) .nil)) ∧
    jsonRender (.dict (.cons (.str "f")
        (.dict (.cons (.bool false) (.str "x") .nil)) .nil))
      = some (.dict (.cons (.str "f")
          (.dict (.cons (.str "false") (.str "x") .nil)) .nil)) ∧
    marshal (.cons "f" (.tdict .tbool .tstr) .nil)
        (.dict (.cons (.str "f")
          (.dict (.cons (.str "false") (.str "x") .nil)) .nil))
      = some (.dict (.cons (.str "f")
          (.dict (.cons (.bool true) (.str "x") .nil)) .nil)) ∧
    (.dict (.cons (.str "f")
        (.dict (.cons (.bool true) (.str "x") .nil)) .nil) : PyValue)
      ≠ .dict (.cons (.str "f")
          (.dict (.cons (.bool false) (.str "x") .nil)) .nil) := by
  refine ⟨rfl, rfl, rfl, rfl, ?_⟩
  decide

/-- Marshalling is also not Python-`==`-idempotent in the presence of
NaN: under the schema `{"f": float}` the document `{"f": "nan"}`
marshals successfully (`float("nan")` is a NaN), the JSON round trip
(the `NaN` token) reproduces the record structurally, and re-marshalling
succeeds — but the re-marshalled NaN is a fresh object out of
`json.loads`, and `nan != nan` in Python, so `==` on the two records is
`False`. This is the case the amended C5 excludes with its no-NaN
condition. -/
theorem marshal_nan_not_python_equal :
    marshal (.cons "f" .tfloat .nil)
        (.dict (.cons (.str "f") (.str "nan") .nil))
      = some (.dict (.cons (.str "f") (.float .nan) .nil)) ∧
    jsonRender (.dict (.cons (.str "f") (.float .nan) .nil))
      = some (.dict (.cons (.str "f") (.float .nan) .nil)) ∧
    marshal (.cons "f" .tfloat .nil)
        (.dict (.cons (.str "f") (.float .nan) .nil))
      = some (.dict (.cons (.str "f") (.float .nan) .nil)) ∧
    noNanV (.dict (.cons (.str "f") (.float .nan) .nil)) = false ∧
    pyEq (.dict (.cons (.str "f") (.float .nan) .nil))
        (.dict (.cons (.str "f") (.float .nan) .nil)) = false := by
  refine ⟨rfl, rfl, rfl, rfl, ?_⟩
  simp [pyEq, pyEqP, pyMemKV, numEqWith, asNum, pfloatEq]

/-- C5 amended: for schemas whose `mapping-of` key kinds are never the
boolean kind (plus the implicit validity conditions: distinct declared
names, as for Python class `meta` dicts), marshalling a JSON document
whose fields are all declared, when it succeeds and its result holds no
NaN float, is idempotent under the JSON round trip: rendering the result
and re-marshalling it reproduces the result exactly, and the
reproduction compares equal to the original result under Python `==`
(`pyEq`). The no-NaN condition is required by Python's `nan != nan` (see
`marshal_nan_not_python_equal`); the no-boolean-key condition by the
counterexample `marshal_render_not_idempotent`. -/
theorem marshal_render_idempotent (s : Schema) (kvs : PyPairs) (m : PyValue)
    (hdoc : jsonDocB (.dict kvs) = true)
    (hdecl : ∀ n : String, (pyGet kvs (.str n)).isSome = true → n ∈ namesOf s)
    (hnb : noBoolKeyS s = true) (hnd : nodupS s = true)
    (hnan : noNanV m = true)
    (hm : marshal s (.dict kvs) = some m) :
    ∃ m' m2, jsonRender m = some m' ∧ marshal s m' = some m2 ∧
      m2 = m ∧ pyEq m2 m = true := by
  have hfix : fix_types (.tschema s) (.dict kvs) = some m := by
    rw [fix_types_tschema]
    exact hm
  obtain ⟨m', h1, h2⟩ := fixIdem (.tschema s) (.dict kvs) m hdoc hnb hnd hfix
  have hcan : canonV m = true := canonFix (.tschema s) (.dict kvs) m hdoc hfix
  refine ⟨m', m, h1, ?_, rfl, pyEq_refl m hnan hcan⟩
  rw [← fix_types_tschema]
  exact h2

/-- Witness for `marshal_render_idempotent` on `{"guid": str}` and
`{"guid": "abc"}`. -/
theorem marshal_render_idempotent_witness :
    marshal (.cons "guid" .tstr .nil)
        (.dict (.cons (.str "guid") (.str "abc") .nil))
      = some (.dict (.cons (.str "guid") (.str "abc") .nil)) ∧
    ∃ m' m2, jsonRender (.dict (.cons (.str "guid") (.str "abc") .nil))
        = some m' ∧
      marshal (.cons "guid" .tstr .nil) m' = some m2 ∧
      m2 = .dict (.cons (.str "guid") (.str "abc") .nil) ∧
      pyEq m2 (.dict (.cons (.str "guid") (.str "abc") .nil)) = true :=
  ⟨rfl,
    marshal_render_idempotent (.cons "guid" .tstr .nil)
      (.cons (.str "guid") (.str "abc") .nil)
      (.dict (.cons (.str "guid") (.str "abc") .nil))
      (by decide)
      (fun n h => by
        rw [pyGet] at h
        by_cases hg : (PyValue.str "guid") = (PyValue.str n)
        · injection hg with hg'
          rw [namesOf, namesOf]
          exact hg' ▸ List.mem_cons_self _ _
        · rw [if_neg hg] at h
          exact absurd h (by simp [pyGet]))
      rfl (by decide) (by decide) rfl⟩

end AMO
